import Mathlib

/-!
Shallow embedding of the bareUtils HTTP metadata toolkit
(`src/bareutils/cookies.py`, `src/bareutils/header.py`,
`src/bareutils/streaming.py`, `src/bareutils/compression.py`,
`src/bareutils/compression/middleware.py`), together with theorems
settling the spec's claims about it.

Python byte strings are modelled as `List Char` (each element is one
byte character), Python `dict`s as insertion-ordered association lists,
quality values (Python floats that are only ever compared with `0` and
ordered) as rationals, and fallible Python code (code that can raise) as
`Option`-valued functions where `none` means an exception escaped.
-/

namespace BareUtils

/-- Byte strings (Python `bytes`) are lists of characters. -/
abbrev Bytes := List Char

/-! ### Python primitives on byte strings -/

/-- Helper for the splitters: prepend a character to the first piece. -/
def consHead (x : Char) : List Bytes → List Bytes
  | [] => [[x]]
  | p :: ps => (x :: p) :: ps

/-- Python `s.split(sep)` for a one-character separator: splits at every
occurrence; `b''.split(sep) == [b'']`. -/
def pySplit1 (c : Char) : Bytes → List Bytes
  | [] => [[]]
  | x :: xs =>
    if x = c then [] :: pySplit1 c xs
    else consHead x (pySplit1 c xs)

/-- Python `s.split(sep)` for a two-character separator such as `b'; '`:
scans left to right for non-overlapping occurrences of the pair. -/
def pySplit2 (c₁ c₂ : Char) : Bytes → List Bytes
  | [] => [[]]
  | x :: xs =>
    match xs with
    | [] => [[x]]
    | y :: ys =>
      if x = c₁ ∧ y = c₂ then [] :: pySplit2 c₁ c₂ ys
      else consHead x (pySplit2 c₁ c₂ (y :: ys))

/-- Python `s.split(sep, maxsplit=n)` for a one-character separator:
at most `n` splits are performed, the remainder is kept whole. -/
def pySplitMax (c : Char) : Nat → Bytes → List Bytes
  | _, [] => [[]]
  | 0, s => [s]
  | n + 1, x :: xs =>
    if x = c then [] :: pySplitMax c n xs
    else consHead x (pySplitMax c (n + 1) xs)

/-- Python `s.partition(sep)` for a one-character separator: returns the
part before the first occurrence, whether the separator was found, and
the part after it (`(s, False, b'')` when absent). -/
def pyPartition (c : Char) : Bytes → Bytes × Bool × Bytes
  | [] => ([], false, [])
  | x :: xs =>
    if x = c then ([], true, xs)
    else
      let r := pyPartition c xs
      (x :: r.1, r.2.1, r.2.2)

/-- Characters treated as whitespace by Python's `bytes.strip()`. -/
def pyWhitespace : List Char := [' ', '\t', '\n', '\x0d', '\x0b', '\x0c']

/-- Python `s.lstrip()` (default whitespace). -/
def pyLstrip (s : Bytes) : Bytes := s.dropWhile (· ∈ pyWhitespace)

/-- Python `s.rstrip()` (default whitespace). -/
def pyRstrip (s : Bytes) : Bytes := (s.reverse.dropWhile (· ∈ pyWhitespace)).reverse

/-- Python `s.strip()` (default whitespace). -/
def pyStrip (s : Bytes) : Bytes := pyRstrip (pyLstrip s)

/-- Python `s.rstrip(chars)`: remove every trailing character drawn from
`chars`. -/
def pyRstripSet (chars : List Char) (s : Bytes) : Bytes :=
  (s.reverse.dropWhile (· ∈ chars)).reverse

/-- Python `sep.join(pieces)`: the pieces with `sep` between each
adjacent pair. -/
def joinSep (sep : Bytes) : List Bytes → Bytes
  | [] => []
  | [p] => p
  | p :: q :: rest => p ++ sep ++ joinSep sep (q :: rest)

/-- Lower-case a single ASCII letter, as `bytes.lower` does per byte. -/
def asciiLower (c : Char) : Char :=
  if 'A' ≤ c ∧ c ≤ 'Z' then Char.ofNat (c.toNat + 32) else c

/-- Python `s.lower()` over a byte string. -/
def pyLower (s : Bytes) : Bytes := s.map asciiLower

/-- Decimal digit character table (the inverse direction of `charDigit`). -/
def digitChar (n : Nat) : Char :=
  match n with
  | 0 => '0' | 1 => '1' | 2 => '2' | 3 => '3' | 4 => '4'
  | 5 => '5' | 6 => '6' | 7 => '7' | 8 => '8' | 9 => '9'
  | _ => '*'

/-- Value of a decimal digit character, `none` for a non-digit. -/
def charDigit (c : Char) : Option Nat :=
  if '0' ≤ c ∧ c ≤ '9' then some (c.toNat - 48) else none

/-- Render a natural number below 100 as exactly two decimal digits,
matching Python's `{:02d}` format on such values. -/
def twoDigits (n : Nat) : Bytes := [digitChar (n / 10), digitChar (n % 10)]

/-- Render a natural number below 10000 as exactly four decimal digits,
matching Python's `{:04d}` format on such values. -/
def fourDigits (n : Nat) : Bytes :=
  [digitChar (n / 1000), digitChar (n / 100 % 10), digitChar (n / 10 % 10), digitChar (n % 10)]

/-- Python `str(n)` for a natural number (decimal digits). -/
def natToBytes (n : Nat) : Bytes := Nat.toDigits 10 n

/-- Python `str(n)` for an integer. -/
def intToBytes (n : Int) : Bytes :=
  if n < 0 then '-' :: natToBytes n.natAbs else natToBytes n.natAbs

/-- Python `int(s)` on a byte string: optional surrounding whitespace, an
optional sign, then one or more decimal digits (`none` models the
`ValueError` raised otherwise). -/
def parseInt (s : Bytes) : Option Int :=
  let t := pyStrip s
  let core : Bytes → Option Nat := fun u =>
    if u = [] then none
    else u.foldlM (fun acc c => (charDigit c).map (fun d => acc * 10 + d)) 0
  match t with
  | '-' :: rest => (core rest).map (fun n => -(n : Int))
  | '+' :: rest => (core rest).map (fun n => (n : Int))
  | _ => (core t).map (fun n => (n : Int))

/-- Python `float(s)` restricted to the decimal forms that occur in
quality values: optional sign, digits with an optional fractional part.
The result is exact, as a rational. -/
def parseFloat (s : Bytes) : Option Rat :=
  let t := pyStrip s
  let digitsVal : Bytes → Option Nat := fun u =>
    if u = [] then none
    else u.foldlM (fun acc c => (charDigit c).map (fun d => acc * 10 + d)) 0
  let unsigned : Bytes → Option Rat := fun u =>
    match pySplit1 '.' u with
    | [whole] => (digitsVal whole).map (fun n => (n : Rat))
    | [whole, frac] =>
      if whole = [] ∧ frac = [] then none
      else
        let w : Option Nat := if whole = [] then some 0 else digitsVal whole
        let f : Option Nat := if frac = [] then some 0 else digitsVal frac
        match w, f with
        | some wv, some fv => some ((wv : Rat) + (fv : Rat) / ((10 : Rat) ^ frac.length))
        | _, _ => none
    | _ => none
  match t with
  | '-' :: rest => (unsigned rest).map (fun q => -q)
  | '+' :: rest => unsigned rest
  | _ => unsigned t

/-! ### Date codec (`cookies.py`: `parse_date`, `format_date`)

Dates are parsed from and formatted to the RFC 7231 textual form.  A
`datetime` value (always UTC here) is modelled by its components; the
Python constructor's validation is the `Option` in `mkDatetime`. -/

/-- UTC timestamp components, as held by a Python `datetime`. -/
structure PyDateTime where
  year : Nat
  month : Nat
  day : Nat
  hour : Nat
  minute : Nat
  second : Nat
deriving DecidableEq, Repr

/-- Gregorian leap-year test, as Python's `calendar`/`datetime` use. -/
def isLeap (y : Nat) : Bool := y % 4 = 0 ∧ (y % 100 ≠ 0 ∨ y % 400 = 0)

/-- Number of days in a month (1-based month index). -/
def daysInMonth (y m : Nat) : Nat :=
  match m with
  | 1 => 31 | 2 => if isLeap y then 29 else 28 | 3 => 31 | 4 => 30
  | 5 => 31 | 6 => 30 | 7 => 31 | 8 => 31 | 9 => 30 | 10 => 31
  | 11 => 30 | 12 => 31
  | _ => 0

/-- Days in all years strictly before year `y` (proleptic Gregorian,
year 1 is the first year, as in Python's `datetime.toordinal`). -/
def daysBeforeYear (y : Nat) : Nat :=
  365 * (y - 1) + (y - 1) / 4 + (y - 1) / 400 - (y - 1) / 100

/-- Days in the months of year `y` strictly before month `m` (1-based). -/
def daysBeforeMonth (y m : Nat) : Nat :=
  (List.range m).foldl (fun acc i => acc + daysInMonth y i) 0

/-- Python `datetime.toordinal()`: day number with `0001-01-01` as day 1. -/
def toOrdinal (d : PyDateTime) : Nat :=
  daysBeforeYear d.year + daysBeforeMonth d.year d.month + d.day

/-- Python `datetime.weekday()` / `utctimetuple().tm_wday`: Monday is 0. -/
def pyWeekday (d : PyDateTime) : Nat := (toOrdinal d + 6) % 7

/-- Validation performed by the Python `datetime` constructor; the parser
below never builds an out-of-range month, so months are 1..12 already. -/
def mkDatetime (year month day hour minute second : Nat) : Option PyDateTime :=
  if 1 ≤ year ∧ year ≤ 9999 ∧ 1 ≤ month ∧ month ≤ 12 ∧
      1 ≤ day ∧ day ≤ daysInMonth year month ∧
      hour ≤ 23 ∧ minute ≤ 59 ∧ second ≤ 59 then
    some ⟨year, month, day, hour, minute, second⟩
  else
    none

/-- Three-letter day names, indexed as in `DAY_NAMES` (Monday first). -/
def dayNameChars (i : Nat) : Bytes :=
  match i with
  | 0 => ['M', 'o', 'n'] | 1 => ['T', 'u', 'e'] | 2 => ['W', 'e', 'd']
  | 3 => ['T', 'h', 'u'] | 4 => ['F', 'r', 'i'] | 5 => ['S', 'a', 't']
  | 6 => ['S', 'u', 'n']
  | _ => []

/-- Three-letter month names, 0-indexed as in `MONTH_NAMES`. -/
def monthNameChars (i : Nat) : Bytes :=
  match i with
  | 0 => ['J', 'a', 'n'] | 1 => ['F', 'e', 'b'] | 2 => ['M', 'a', 'r']
  | 3 => ['A', 'p', 'r'] | 4 => ['M', 'a', 'y'] | 5 => ['J', 'u', 'n']
  | 6 => ['J', 'u', 'l'] | 7 => ['A', 'u', 'g'] | 8 => ['S', 'e', 'p']
  | 9 => ['O', 'c', 't'] | 10 => ['N', 'o', 'v'] | 11 => ['D', 'e', 'c']
  | _ => []

/-- Match one of the seven day names at the head of the input, returning
its `DAY_NAMES` index and the rest (the `(Mon|Tue|...)` regex group). -/
def matchDayName : Bytes → Option (Nat × Bytes)
  | 'M' :: 'o' :: 'n' :: r => some (0, r)
  | 'T' :: 'u' :: 'e' :: r => some (1, r)
  | 'W' :: 'e' :: 'd' :: r => some (2, r)
  | 'T' :: 'h' :: 'u' :: r => some (3, r)
  | 'F' :: 'r' :: 'i' :: r => some (4, r)
  | 'S' :: 'a' :: 't' :: r => some (5, r)
  | 'S' :: 'u' :: 'n' :: r => some (6, r)
  | _ => none

/-- Match one of the twelve month names at the head of the input,
returning its 0-based `MONTH_NAMES` index and the rest. -/
def matchMonthName : Bytes → Option (Nat × Bytes)
  | 'J' :: 'a' :: 'n' :: r => some (0, r)
  | 'F' :: 'e' :: 'b' :: r => some (1, r)
  | 'M' :: 'a' :: 'r' :: r => some (2, r)
  | 'A' :: 'p' :: 'r' :: r => some (3, r)
  | 'M' :: 'a' :: 'y' :: r => some (4, r)
  | 'J' :: 'u' :: 'n' :: r => some (5, r)
  | 'J' :: 'u' :: 'l' :: r => some (6, r)
  | 'A' :: 'u' :: 'g' :: r => some (7, r)
  | 'S' :: 'e' :: 'p' :: r => some (8, r)
  | 'O' :: 'c' :: 't' :: r => some (9, r)
  | 'N' :: 'o' :: 'v' :: r => some (10, r)
  | 'D' :: 'e' :: 'c' :: r => some (11, r)
  | _ => none

/-- Match one literal character (a literal in the date regex). -/
def matchChar (c : Char) : Bytes → Option Bytes
  | [] => none
  | x :: xs => if x = c then some xs else none

/-- Match exactly two decimal digits (the `(\d{2})` regex group). -/
def matchTwoDigits : Bytes → Option (Nat × Bytes)
  | c₁ :: c₂ :: r =>
    match charDigit c₁, charDigit c₂ with
    | some d₁, some d₂ => some (d₁ * 10 + d₂, r)
    | _, _ => none
  | _ => none

/-- Match exactly four decimal digits (the `(\d{4})` regex group). -/
def matchFourDigits : Bytes → Option (Nat × Bytes)
  | c₁ :: c₂ :: c₃ :: c₄ :: r =>
    match charDigit c₁, charDigit c₂, charDigit c₃, charDigit c₄ with
    | some d₁, some d₂, some d₃, some d₄ =>
      some (((d₁ * 10 + d₂) * 10 + d₃) * 10 + d₄, r)
    | _, _, _, _ => none
  | _ => none

/-- Match the trailing `" GMT"` literal followed by end of input. -/
def matchGMTEnd : Bytes → Option Unit
  | [' ', 'G', 'M', 'T'] => some ()
  | _ => none

/-- Match the common date prefix `"<Dow>, <DD>"` of both patterns,
returning the two-digit day and the rest (the day-of-week group is
carried only to be discarded, as `parse_date` does). -/
def matchDayPrefix (s : Bytes) : Option (Nat × Bytes) := do
  let (_dow, s) ← matchDayName s
  let s ← matchChar ',' s
  let s ← matchChar ' ' s
  matchTwoDigits s

/-- Match the common suffix `"<HH>:<MM>:<SS> GMT"` of both patterns
followed by end of input. -/
def matchTimeGMT (s : Bytes) : Option (Nat × Nat × Nat) := do
  let (hour, s) ← matchTwoDigits s
  let s ← matchChar ':' s
  let (minute, s) ← matchTwoDigits s
  let s ← matchChar ':' s
  let (second, s) ← matchTwoDigits s
  let () ← matchGMTEnd s
  pure (hour, minute, second)

/-- Match `"<Mon>-ish <YYYY|YY>"` middle part: a separator, the month
name, the same separator, then the year group via `yearDigits`. -/
def matchMonthYear (sep : Char) (yearDigits : Bytes → Option (Nat × Bytes))
    (s : Bytes) : Option (Nat × Nat × Bytes) := do
  let s ← matchChar sep s
  let (mon, s) ← matchMonthName s
  let s ← matchChar sep s
  let (year, s) ← yearDigits s
  pure (mon, year, s)

/-- Leading-anchored match of `DATE_PATTERN_RFC7231`
(`"<Dow>, <DD> <Mon> <YYYY> <HH>:<MM>:<SS> GMT"`) followed by the
`datetime(...)` construction; the matched day-of-week group is ignored,
exactly as `parse_date` ignores `_day_of_week`. -/
def parseRFC7231 (s : Bytes) : Option PyDateTime := do
  let (day, s) ← matchDayPrefix s
  let (mon, year, s) ← matchMonthYear ' ' matchFourDigits s
  let s ← matchChar ' ' s
  let t ← matchTimeGMT s
  mkDatetime year (mon + 1) day t.1 t.2.1 t.2.2

/-- Leading-anchored match of `DATE_PATTERN_RFC850`
(`"<Dow>, <DD>-<Mon>-<YY> <HH>:<MM>:<SS> GMT"`) with the fixed `+2000`
century offset applied to the two-digit year. -/
def parseRFC850 (s : Bytes) : Option PyDateTime := do
  let (day, s) ← matchDayPrefix s
  let (mon, year, s) ← matchMonthYear '-' matchTwoDigits s
  let s ← matchChar ' ' s
  let t ← matchTimeGMT s
  mkDatetime (2000 + year) (mon + 1) day t.1 t.2.1 t.2.2

/-- Python `parse_date`: the RFC 7231 pattern is tried first, then the
legacy RFC 850 pattern; `none` models both the `ParseError` on a double
regex failure and a `ValueError` from the `datetime` constructor. -/
def parse_date (s : Bytes) : Option PyDateTime :=
  (parseRFC7231 s).orElse (fun _ => parseRFC850 s)

/-- Python `format_date`: the fixed-table RFC 7231 rendering
`"{day}, {mday:02d} {mon} {year:04d} {hour:02d}:{min:02d}:{sec:02d} GMT"`,
with the day name recomputed from the date via `utctimetuple().tm_wday`. -/
def format_date (d : PyDateTime) : Bytes :=
  dayNameChars (pyWeekday d) ++ [',', ' '] ++ twoDigits d.day ++ [' '] ++
    monthNameChars (d.month - 1) ++ [' '] ++ fourDigits d.year ++ [' '] ++
    twoDigits d.hour ++ [':'] ++ twoDigits d.minute ++ [':'] ++
    twoDigits d.second ++ [' ', 'G', 'M', 'T']

/-- Components of a date string in the modern RFC 7231 textual form:
rendering them with `renderRFC7231` produces exactly the strings of that
form. -/
structure DateParts where
  dow : Nat
  day : Nat
  mon : Nat
  year : Nat
  hour : Nat
  minute : Nat
  second : Nat
deriving DecidableEq, Repr

/-- Well-formedness of modern-form date components: name indices in
range, a calendar-valid day, and in-range time fields (exactly the
strings of the form that `parse_date` accepts, i.e. that also pass the
`datetime` constructor). -/
def DateParts.wf (p : DateParts) : Prop :=
  p.dow < 7 ∧ p.mon < 12 ∧ 1 ≤ p.year ∧ p.year ≤ 9999 ∧ 1 ≤ p.day ∧
  p.day ≤ daysInMonth p.year (p.mon + 1) ∧ p.hour ≤ 23 ∧ p.minute ≤ 59 ∧
  p.second ≤ 59

instance (p : DateParts) : Decidable p.wf := by
  unfold DateParts.wf; infer_instance

/-- Timestamp denoted by modern-form date components. -/
def DateParts.toDateTime (p : DateParts) : PyDateTime :=
  ⟨p.year, p.mon + 1, p.day, p.hour, p.minute, p.second⟩

/-- Render date components in the modern RFC 7231 textual form
`"<Dow>, <DD> <Mon> <YYYY> <HH>:<MM>:<SS> GMT"`. -/
def renderRFC7231 (p : DateParts) : Bytes :=
  dayNameChars p.dow ++ [',', ' '] ++ twoDigits p.day ++ [' '] ++
    monthNameChars p.mon ++ [' '] ++ fourDigits p.year ++ [' '] ++
    twoDigits p.hour ++ [':'] ++ twoDigits p.minute ++ [':'] ++
    twoDigits p.second ++ [' ', 'G', 'M', 'T']

/-- Sample date components used to instantiate the round-trip theorem:
Saturday, 01 Jan 2000, 07:28:00. -/
def dpWitness : DateParts := ⟨5, 1, 0, 2000, 7, 28, 0⟩

/-! ### Cookie codec (`cookies.py`) -/

/-- Keyword arguments of `encode_set_cookie` other than `name`/`value`,
with their Python defaults.  `max_age` holds the integer number of
seconds (the `timedelta` branch reduces to its `total_seconds()`). -/
structure SetCookieOptions where
  expires : Option PyDateTime := none
  max_age : Option Int := none
  path : Option Bytes := none
  domain : Option Bytes := none
  secure : Bool := false
  http_only : Bool := false
  same_site : Option Bytes := none
deriving DecidableEq, Repr

/-- Python `encode_set_cookie`.  The guard transcribes
`name.startswith(b'__Secure-') or name.startswith(b'__Host-') and not secure`
with Python precedence, i.e. `A or (B and not secure)`; `Except.error ()`
models the `RuntimeError`.  Attribute segments follow in the source's
fixed order. -/
def encode_set_cookie (name value : Bytes) (o : SetCookieOptions) : Except Unit Bytes :=
  if (List.isPrefixOf "__Secure-".data name ||
      (List.isPrefixOf "__Host-".data name && !o.secure)) then
    .error ()
  else
    let s := name ++ '=' :: value
    let s := match o.expires with
      | some e => s ++ "; Expires=".data ++ format_date e
      | none => s
    let s := match o.max_age with
      | some n => s ++ "; Max-Age=".data ++ intToBytes n
      | none => s
    let s := match o.domain with
      | some d => s ++ "; Domain=".data ++ d
      | none => s
    let s := match o.path with
      | some p => s ++ "; Path=".data ++ p
      | none => s
    let s := if o.secure then s ++ "; Secure".data else s
    let s := if o.http_only then s ++ "; HttpOnly".data else s
    let s := match o.same_site with
      | some ss => s ++ "; SameSite=".data ++ ss
      | none => s
    .ok s

/-- Result of `decode_set_cookie`: the `name`/`value` pair, the typed
attribute fields, and the unrecognized keys retained verbatim (in
insertion order, later assignments to the same key overwriting). -/
structure SetCookieRecord where
  name : Bytes
  value : Bytes
  expires : Option PyDateTime := none
  max_age : Option Int := none
  secure : Bool := false
  http_only : Bool := false
  same_site : Option Bytes := none
  extra : List (Bytes × Bytes) := []
deriving DecidableEq, Repr

/-- Assign into an insertion-ordered mapping, Python `d[k] = v` style:
an existing key keeps its position and gets the new value, a new key is
appended. -/
def pyDictAssign (m : List (Bytes × Bytes)) (k v : Bytes) : List (Bytes × Bytes) :=
  match m with
  | [] => [(k, v)]
  | (k', v') :: rest =>
    if k' = k then (k', v) :: rest else (k', v') :: pyDictAssign rest k v

/-- Process one `;`-separated attribute item of a Set-Cookie header, as
the loop body of `decode_set_cookie` does: partition on `=`, normalize
the key with `lower().strip()`, and dispatch on the known keys.  `none`
models an exception from `parse_date` or `int`. -/
def applySetCookieItem (r : SetCookieRecord) (item : Bytes) : Option SetCookieRecord :=
  let p := pyPartition '=' item
  let key := p.1
  let value := p.2.2
  let nm := pyStrip (pyLower key)
  if nm = "secure".data then some { r with secure := true }
  else if nm = "httponly".data then some { r with http_only := true }
  else if nm = "expires".data then
    (parse_date value).map (fun d => { r with expires := some d })
  else if nm = "max-age".data then
    (parseInt value).map (fun n => { r with max_age := some n })
  else if nm = "samesite".data then
    some { r with same_site := some value }
  else
    some { r with extra := pyDictAssign r.extra nm value }

/-- Python `decode_set_cookie`: split on `;`, unpack the first segment
with `split(b'=', maxsplit=2)` into exactly two parts (anything else
raises), then fold the remaining items. -/
def decode_set_cookie (s : Bytes) : Option SetCookieRecord :=
  match pySplit1 ';' s with
  | [] => none
  | first :: items =>
    match pySplitMax '=' 2 first with
    | [key, value] =>
      items.foldlM applySetCookieItem ⟨key, value, none, none, false, false, none, []⟩
    | _ => none

/-- Cookie mapping from names to value lists, in insertion order, as the
Python `dict` of `encode_cookies`/`decode_cookies`. -/
abbrev CookieMap := List (Bytes × List Bytes)

/-- Python `encode_cookies`: every `name=value` pair, multi-valued names
expanded in order, joined with `"; "`. -/
def encode_cookies (m : CookieMap) : Bytes :=
  joinSep [';', ' '] (m.flatMap (fun p => p.2.map (fun v => p.1 ++ '=' :: v)))

/-- Python `result.setdefault(name, []).append(value)` on an
insertion-ordered mapping of lists. -/
def dictAppend (m : CookieMap) (k : Bytes) (v : Bytes) : CookieMap :=
  match m with
  | [] => [(k, [v])]
  | (k', vs) :: rest =>
    if k' = k then (k', vs ++ [v]) :: rest else (k', vs) :: dictAppend rest k v

/-- Python `decode_cookies`: strip any trailing `;`/space characters,
split on `"; "`, partition each morsel once on `=` and group repeated
names in encounter order. -/
def decode_cookies (s : Bytes) : CookieMap :=
  (pySplit2 ';' ' ' (pyRstripSet [';', ' '] s)).foldl
    (fun acc morsel =>
      let p := pyPartition '=' morsel
      dictAppend acc p.1 p.2.2)
    []

/-! ### Header accessors and content negotiation (`header.py`) -/

/-- Header list entry: a `(name, value)` pair of byte strings. -/
abbrev Header := Bytes × Bytes

/-- Python `find`: first value under `name`, else the default (`none`). -/
def find (name : Bytes) (headers : List Header) : Option Bytes :=
  (headers.find? (fun h => h.1 = name)).map (·.2)

/-- Python `find_all`: every value under `name`, in encounter order. -/
def find_all (name : Bytes) (headers : List Header) : List Bytes :=
  (headers.filter (fun h => h.1 = name)).map (·.2)

/-- Quality map: encoding/charset/language token to quality, insertion
ordered with unique keys, as the Python `dict` comprehensions build. -/
abbrev QualityMap := List (Bytes × Rat)

/-- Lookup in an insertion-ordered mapping (Python `m[k]` / `k in m`). -/
def qLookup (m : QualityMap) (k : Bytes) : Option Rat :=
  (m.find? (fun p => p.1 = k)).map (·.2)

/-- Assignment into a quality map, Python `d[k] = v` style (first
position kept on overwrite, new keys appended). -/
def qAssign (m : QualityMap) (k : Bytes) (v : Rat) : QualityMap :=
  match m with
  | [] => [(k, v)]
  | (k', v') :: rest =>
    if k' = k then (k', v) :: rest else (k', v') :: qAssign rest k v

/-- Python `_parse_quality`: `b''` yields `None` (`some none` here), a
single `key=val` with key `b'q'` yields the float, anything else raises
(`none` here: a missing `=`, extra `=`s, a key other than `q`, or an
unparseable float). -/
def parse_quality (s : Bytes) : Option (Option Rat) :=
  if s = [] then some none
  else
    match pySplit1 '=' s with
    | [nm, q] => if nm = "q".data then (parseFloat q).map some else none
    | _ => none

/-- Quality defaulting as written in the comprehensions:
`_parse_quality(rest) or 1.0`.  Note Python's `or` also replaces a
parsed quality of `0.0` (falsy) with `1.0`. -/
def qualityOrOne (oq : Option Rat) : Rat :=
  match oq with
  | none => 1
  | some q => if q = 0 then 1 else q

/-- Shared body of `_parse_accept_charset`, `_parse_accept_encoding` and
`_parse_accept_language`: split the value on `b', '`, partition each
token on `b';'` and attach its quality. -/
def parseQualityTokens (value : Bytes) : Option QualityMap :=
  (pySplit2 ',' ' ' value).foldlM
    (fun acc tok =>
      let p := pyPartition ';' tok
      (parse_quality p.2.2).map (fun oq => qAssign acc p.1 (qualityOrOne oq)))
    []

/-- Python `_parse_accept_encoding`: quality tokens plus the implicit
`identity` entry at quality 1.0 when requested and absent. -/
def parse_accept_encoding (value : Bytes) (add_identity : Bool) : Option QualityMap :=
  (parseQualityTokens value).map (fun m =>
    if add_identity && (qLookup m "identity".data).isNone then
      qAssign m "identity".data 1
    else m)

/-- Python `_parse_accept_charset`: quality tokens plus the implicit `*`
entry at quality 1.0 when requested and absent. -/
def parse_accept_charset (value : Bytes) (add_wildcard : Bool) : Option QualityMap :=
  (parseQualityTokens value).map (fun m =>
    if add_wildcard && (qLookup m "*".data).isNone then
      qAssign m "*".data 1
    else m)

/-- Python `_parse_accept_language`: identical to the charset parser up
to the injected wildcard key. -/
def parse_accept_language (value : Bytes) (add_wildcard : Bool) : Option QualityMap :=
  (parseQualityTokens value).map (fun m =>
    if add_wildcard && (qLookup m "*".data).isNone then
      qAssign m "*".data 1
    else m)

/-- Parameter value in an Accept header's parameter mapping: a float for
the `q` key, the raw token otherwise. -/
inductive PVal where
  | f (q : Rat)
  | b (v : Bytes)
deriving DecidableEq, Repr

/-- Parameter mapping of one Accept media type. -/
abbrev ParamMap := List (Bytes × PVal)

/-- Assignment into a parameter mapping, Python `dict` style. -/
def pAssign (m : ParamMap) (k : Bytes) (v : PVal) : ParamMap :=
  match m with
  | [] => [(k, v)]
  | (k', v') :: rest =>
    if k' = k then (k', v) :: rest else (k', v') :: pAssign rest k v

/-- Python `_parse_accept_params`: an empty parameter string yields
`{b'q': 1.0}`; otherwise each `;`-separated param is partitioned on `=`
and stored under its stripped name — the value is parsed as a float only
when the *unstripped* name is exactly `b'q'`, any other name keeps the
stripped token bytes without error. -/
def parse_accept_params (value : Bytes) : Option ParamMap :=
  if value = [] then some [("q".data, .f 1)]
  else
    (pySplit1 ';' value).foldlM
      (fun acc param =>
        let p := pyPartition '=' param
        let nm := p.1
        let token := p.2.2
        if nm = "q".data then
          (parseFloat (pyStrip token)).map (fun q => pAssign acc (pyStrip nm) (.f q))
        else
          some (pAssign acc (pyStrip nm) (.b (pyStrip token))))
      []

/-- Mapping produced by the Accept parser: media type to parameters. -/
abbrev AcceptMap := List (Bytes × ParamMap)

/-- Assignment into an Accept mapping, Python `dict` style. -/
def aAssign (m : AcceptMap) (k : Bytes) (v : ParamMap) : AcceptMap :=
  match m with
  | [] => [(k, v)]
  | (k', v') :: rest =>
    if k' = k then (k', v) :: rest else (k', v') :: aAssign rest k v

/-- Lookup in an Accept mapping. -/
def aLookup (m : AcceptMap) (k : Bytes) : Option ParamMap :=
  (m.find? (fun p => p.1 = k)).map (·.2)

/-- Python `_parse_accept`: split on `b','`, strip each token, partition
on `b';'` and parse the parameters; optionally inject the `*` wildcard
with `{b'q': 1.0}`. -/
def parse_accept (value : Bytes) (add_wildcard : Bool) : Option AcceptMap := do
  let m ← (pySplit1 ',' value).foldlM
    (fun acc tok =>
      let p := pyPartition ';' (pyStrip tok)
      (parse_accept_params p.2.2).map (fun ps => aAssign acc p.1 ps))
    []
  if add_wildcard && (aLookup m "*".data).isNone then
    pure (aAssign m "*".data [("q".data, .f 1)])
  else
    pure m

/-- Python `_parse_content_encoding`: split on `b', '`, optionally
appending `b'identity'`. -/
def parse_content_encoding (value : Bytes) (add_identity : Bool) : List Bytes :=
  let encodings := pySplit2 ',' ' ' value
  if add_identity && !encodings.contains "identity".data then
    encodings ++ ["identity".data]
  else encodings

/-- Python `_parse_vary`: split on `b', '`. -/
def parse_vary (value : Bytes) : List Bytes := pySplit2 ',' ' ' value

/-- Python `header.accept_encoding(headers, add_identity=...)`: `none`
when the header is absent (the default), `some none` is impossible —
parse failures abort the middleware, modelled by the outer `Option` in
`parse_accept_encoding`. -/
def accept_encoding (headers : List Header) (add_identity : Bool) :
    Option (Option QualityMap) :=
  (find "accept-encoding".data headers).map
    (fun v => parse_accept_encoding v add_identity)

/-- Python `header.content_encoding(headers)` (without `add_identity`). -/
def content_encoding (headers : List Header) : Option (List Bytes) :=
  (find "content-encoding".data headers).map (fun v => parse_content_encoding v false)

/-- Python `header.content_length(headers)`: `none` when absent, the
inner `Option` models `int()` raising on a malformed value. -/
def content_length (headers : List Header) : Option (Option Int) :=
  (find "content-length".data headers).map parseInt

/-- Python `header.vary(headers)`. -/
def varyHeader (headers : List Header) : Option (List Bytes) :=
  (find "vary".data headers).map parse_vary

/-! ### Compression negotiation middleware (`compression/middleware.py`)

The middleware instance is reduced to its data: the registered codec
names (`compressors.keys()`) and the minimum size.  Bodies are opaque,
so the `__call__` result records the response shape instead. -/

/-- Python `CompressionMiddleware.is_acceptable`.  `none` models the
`KeyError` of `accept_encoding[b'identity']` when identity is absent;
set sizes are replaced by existential membership over the lists. -/
def is_acceptable (compressors : List Bytes) (accept_enc : QualityMap)
    (content_enc : List Bytes) : Option Bool :=
  (qLookup accept_enc "identity".data).map (fun qi =>
    if qi = 0 then
      let acceptable := (accept_enc.filter (fun p => p.2 ≠ 0)).map (·.1)
      let current := content_enc.filter (fun e => e ≠ "identity".data)
      let available := compressors ++ current
      acceptable.any (fun e => available.contains e)
    else true)

/-- Python `CompressionMiddleware.is_desirable`. -/
def is_desirable (compressors : List Bytes) (minimum_size : Int)
    (accept_enc : QualityMap) (content_enc : List Bytes)
    (contentLen : Option Int) : Bool :=
  match contentLen with
  | some n => if n < minimum_size then false else isDesirableRest compressors accept_enc content_enc
  | none => isDesirableRest compressors accept_enc content_enc
where
  /-- Shared tail of `is_desirable` after the size gate. -/
  isDesirableRest (compressors : List Bytes) (accept_enc : QualityMap)
      (content_enc : List Bytes) : Bool :=
    let acceptable := (accept_enc.filter
      (fun p => p.2 ≠ 0 ∧ p.1 ≠ "identity".data)).map (·.1)
    let current := content_enc.filter (fun e => e ≠ "identity".data)
    if acceptable.any (fun e => current.contains e) then false
    else if acceptable.any (fun e => compressors.contains e) then true
    else false

/-- Comparator used by `sorted(..., key=lambda x: x[1])`: order by the
quality component. -/
def qualityLE (a b : Bytes × Rat) : Bool := a.2 ≤ b.2

/-- Python `CompressionMiddleware.select_encoding`: filter out the zero
qualities and `identity`, stable-sort ascending by quality, and take the
first encoding registered in the compressor map (`none` models the
`StopIteration` when there is none). -/
def select_encoding (compressors : List Bytes) (accept_enc : QualityMap) : Option Bytes :=
  let acceptable :=
    (accept_enc.filter (fun p => p.2 ≠ 0 ∧ p.1 ≠ "identity".data)).mergeSort qualityLE
  (acceptable.find? (fun p => compressors.contains p.1)).map (·.1)

/-- Shape of the value returned by `CompressionMiddleware.__call__`. -/
inductive MWResult where
  | unchanged (status : Int) (headers : List Header)
  | notAcceptable
  | compressed (status : Int) (headers : List Header) (encoding : Bytes)
deriving DecidableEq, Repr

/-- Python `CompressionMiddleware.__call__`, applied to the completed
response `(status, headers, body)` of the wrapped handler and the
request headers from the scope.  The body itself is opaque: the
`compressed` result names the chosen encoding whose freshly built
compressor wraps it.  `none` models an uncaught exception (a parse
error or the `identity` `KeyError`). -/
def middlewareCall (compressors : List Bytes) (minimum_size : Int)
    (reqHeaders : List Header) (status : Int) (respHeaders : List Header) :
    Option MWResult := do
  if status < 200 ∨ status ≥ 300 then
    return .unchanged status respHeaders
  let accept_enc ←
    match accept_encoding reqHeaders true with
    | none => some [("identity".data, (1 : Rat))]
    | some parsed =>
      (parsed.map (fun m =>
        if m = [] then [("identity".data, (1 : Rat))] else m))
  let content_enc := (content_encoding respHeaders).getD ["identity".data]
  let acceptable ← is_acceptable compressors accept_enc content_enc
  if !acceptable then
    return .notAcceptable
  let contentLen ←
    match content_length respHeaders with
    | none => some none
    | some parsed => parsed.map some
  if !is_desirable compressors minimum_size accept_enc content_enc contentLen then
    return .unchanged status respHeaders
  let vary := (varyHeader respHeaders).getD []
  let encoding ← select_encoding compressors accept_enc
  let headers := respHeaders.filter (fun h =>
    h.1 ≠ "content-length".data ∧ h.1 ≠ "content-encoding".data ∧ h.1 ≠ "vary".data)
  let headers := headers ++ [("content-encoding".data, encoding)]
  let vary := if !vary.contains "accept-encoding".data then
    vary ++ ["accept-encoding".data] else vary
  let headers := headers ++ [("vary".data, joinSep [',', ' '] vary)]
  if !compressors.contains encoding then
    none
  else
    return .compressed status headers encoding

/-! ### Streaming generators (`streaming.py`, `compression.py`)

The async generators are embedded as step machines: a state, a step
function returning `some (yielded chunk, next state)` or `none` when
the generator returns, and a fuel-indexed driver.  `genRun` produces the
full yielded sequence when the generator terminates within the fuel and
`none` otherwise; `genTrace` is the prefix of yields seen within the
fuel regardless of termination. -/

/-- Drive a generator for at most `fuel` yields, returning the complete
yielded sequence only if the generator finishes. -/
def genRun {σ : Type} (step : σ → Option (Bytes × σ)) : Nat → σ → Option (List Bytes)
  | 0, st =>
    match step st with
    | none => some []
    | some _ => none
  | fuel + 1, st =>
    match step st with
    | none => some []
    | some (c, st') => (genRun step fuel st').map (c :: ·)

/-- Chunks yielded within the first `fuel` steps, whether or not the
generator terminates. -/
def genTrace {σ : Type} (step : σ → Option (Bytes × σ)) : Nat → σ → List Bytes
  | 0, _ => []
  | fuel + 1, st =>
    match step st with
    | none => []
    | some (c, st') => c :: genTrace step fuel st'

/-- Python slice `buf[a:b]` for integer bounds: negative indices count
from the end, out-of-range bounds clamp. -/
def pySlice (buf : Bytes) (a b : Int) : Bytes :=
  let lo : Nat := if a < 0 then buf.length - (-a).toNat else a.toNat.min buf.length
  let hi : Nat := if b < 0 then buf.length - (-b).toNat else b.toNat.min buf.length
  (buf.take hi).drop lo

/-- Control state of the `bytes_writer` generator: `start` is the body
of the `chunk_size == -1` branch before its single yield, `loop st en`
is the `while` loop about to test `st < len(buf)`, `done` is after the
single whole-buffer yield. -/
inductive BWState where
  | start
  | loop (st en : Int)
  | done
deriving DecidableEq, Repr

/-- Initial state of `bytes_writer(buf, chunk_size)`. -/
def bwInit (chunkSize : Int) : BWState :=
  if chunkSize = -1 then .start else .loop 0 chunkSize

/-- One step of `bytes_writer`: either yield the next chunk or finish. -/
def bwStep (buf : Bytes) (chunkSize : Int) : BWState → Option (Bytes × BWState)
  | .start => some (buf, .done)
  | .loop st en =>
    if st < (buf.length : Int) then
      some (pySlice buf st en, .loop en (en + chunkSize))
    else none
  | .done => none

/-- Declarative chunking: consecutive pieces of `k` elements (the last
piece possibly shorter), empty input giving no pieces. -/
def chunksOf (k : Nat) : Bytes → List Bytes
  | [] => []
  | x :: xs =>
    if _h : k = 0 then []
    else (x :: xs).take k :: chunksOf k ((x :: xs).drop k)
termination_by buf => buf.length
decreasing_by
  simp only [List.length_drop, List.length_cons]
  omega

/-- Stateful compressor capability: `compress` maps a chunk to output
bytes while updating the state, `flush` emits the final bytes. -/
structure Compressor (σ : Type) where
  compress : σ → Bytes → σ × Bytes
  flush : σ → Bytes

/-- Thread a compressor over a list of chunks, returning the final state
and the per-chunk outputs. -/
def compressChunks {σ : Type} (comp : Compressor σ) (st : σ) :
    List Bytes → σ × List Bytes
  | [] => (st, [])
  | c :: cs =>
    let r := comp.compress st c
    let rest := compressChunks comp r.1 cs
    (rest.1, r.2 :: rest.2)

/-- State of `compression_writer_adapter`: the wrapped writer's state,
the compressor state, and whether the final flush has been yielded. -/
structure CWState (σ : Type) where
  bw : BWState
  comp : σ
  flushed : Bool

/-- One step of `compression_writer_adapter` over `bytes_writer`: yield
`compress(chunk)` for each chunk of the writer, then one `flush()`. -/
def cwStep {σ : Type} (buf : Bytes) (chunkSize : Int) (comp : Compressor σ) :
    CWState σ → Option (Bytes × CWState σ)
  | ⟨bst, cst, false⟩ =>
    match bwStep buf chunkSize bst with
    | some (chunk, bst') =>
      let r := comp.compress cst chunk
      some (r.2, ⟨bst', r.1, false⟩)
    | none => some (comp.flush cst, ⟨bst, cst, true⟩)
  | ⟨_, _, true⟩ => none

/-- Initial state of `compression_writer(buf, compressobj, chunk_size)`. -/
def cwInit {σ : Type} (chunkSize : Int) (cst : σ) : CWState σ :=
  ⟨bwInit chunkSize, cst, false⟩

/-- Concrete compressor instance used to exhibit behaviour of the
streaming adapters: `compress` echoes its input unchanged and `flush`
emits a visible marker byte. -/
def markedCompressor : Compressor Unit :=
  ⟨fun s c => (s, c), fun _ => ['F']⟩

/-- Proposition: `compression_writer` on the one-byte buffer `b'x'` with
`chunk_size = 0` never terminates — no fuel bound reaches the end of the
generator — and every chunk it yields is empty, so in particular the
flush marker is never emitted. -/
def cwZeroChunkDiverges : Prop :=
  (∀ fuel, genRun (cwStep ['x'] 0 markedCompressor) fuel (cwInit 0 ()) = none) ∧
  (∀ fuel, genTrace (cwStep ['x'] 0 markedCompressor) fuel (cwInit 0 ()) =
    List.replicate fuel [])

/-! ### Parser registry and `collect` (`header.py`)

Only the registry rows exercised by the theorems below are modelled: the
`Set-Cookie` row (`decode_set_cookie`, APPEND) and the `Cookie` row
(`_parse_cookie`, EXTEND).  Header names outside the modelled rows get
the default parser (identity pass-through, APPEND); the theorems about
`collect` restrict the header lists to the modelled names. -/

/-- Extend one key of a cookie table by a list of values, Python
`dct.setdefault(k, []).extend(v)`. -/
def tExtend (m : CookieMap) (k : Bytes) (vs : List Bytes) : CookieMap :=
  match m with
  | [] => [(k, vs)]
  | (k', vs') :: rest =>
    if k' = k then (k', vs' ++ vs) :: rest else (k', vs') :: tExtend rest k vs

/-- Python `_parse_cookie`: regroup the decoded cookie mapping by
extending per-name lists (starting from a fresh `dict`). -/
def parse_cookie (value : Bytes) : CookieMap :=
  (decode_cookies value).foldl
    (fun acc p => tExtend acc p.1 p.2) []

/-- Heterogeneous parsed-header value held in `collect`'s mapping.  In
Python the APPEND/CONCAT lists are untyped; since the parser — and hence
the element shape — is determined by the header name, the record lists
(`Set-Cookie`) and byte-string lists (default parser, CONCAT parsers)
are kept as separate constructors. -/
inductive PyVal where
  | bytes (b : Bytes)
  | record (r : SetCookieRecord)
  | table (m : CookieMap)
  | recordList (xs : List SetCookieRecord)
  | bytesList (xs : List Bytes)
deriving DecidableEq, Repr

/-- Merge strategies of the registry (`_MergeType`). -/
inductive MergeTy where
  | merge_none
  | extend
  | append
  | concat
deriving DecidableEq, Repr

/-- Registry lookup `_PARSERS.get(name, _DEFAULT_PARSER)` restricted to
the rows the theorems need; every other name maps to the default parser
(pass-through, APPEND). -/
def parserFor (name : Bytes) : (Bytes → Option PyVal) × MergeTy :=
  if name = "set-cookie".data then
    (fun v => (decode_set_cookie v).map PyVal.record, .append)
  else if name = "cookie".data then
    (fun v => some (.table (parse_cookie v)), .extend)
  else
    (fun v => some (.bytes v), .append)

/-- Collected-header mapping, insertion ordered. -/
abbrev Collection := List (Bytes × PyVal)

/-- Lookup in a collection. -/
def cLookup (m : Collection) (k : Bytes) : Option PyVal :=
  (m.find? (fun p => p.1 = k)).map (·.2)

/-- Overwrite the value at an existing key, keeping its position. -/
def cUpdate (m : Collection) (k : Bytes) (v : PyVal) : Collection :=
  match m with
  | [] => []
  | (k', v') :: rest =>
    if k' = k then (k', v) :: rest else (k', v') :: cUpdate rest k v

/-- Python `collection.setdefault(name, []).append(result)`: `none`
models the `AttributeError` were the existing value not a list (or, in
the typed model, a list of the other element shape — impossible since
the name fixes the parser). -/
def cAppendAt (m : Collection) (k : Bytes) (v : PyVal) : Option Collection :=
  match cLookup m k, v with
  | none, .record r => some (m ++ [(k, .recordList [r])])
  | none, .bytes b => some (m ++ [(k, .bytesList [b])])
  | some (.recordList xs), .record r => some (cUpdate m k (.recordList (xs ++ [r])))
  | some (.bytesList xs), .bytes b => some (cUpdate m k (.bytesList (xs ++ [b])))
  | _, _ => none

/-- Deep-merge a parsed cookie mapping into an existing one, key by key,
as `collect`'s EXTEND branch does. -/
def tMerge (m0 m1 : CookieMap) : CookieMap :=
  m1.foldl (fun acc p => tExtend acc p.1 p.2) m0

/-- Python `collection.setdefault(name, dict())` followed by the
key-by-key extension: `none` models the type error were the existing
value not a mapping. -/
def cExtendAt (m : Collection) (k : Bytes) (t : CookieMap) : Option Collection :=
  match cLookup m k with
  | none => some (m ++ [(k, .table (tMerge [] t))])
  | some (.table t0) => some (cUpdate m k (.table (tMerge t0 t)))
  | some _ => none

/-- One iteration of `collect`'s fold over the header list. -/
def collectStep (acc : Collection) (h : Header) : Option Collection :=
  let pr := parserFor h.1
  match pr.2 with
  | .append => do
    let r ← pr.1 h.2
    cAppendAt acc h.1 r
  | .extend => do
    let r ← pr.1 h.2
    match r with
    | .table t => cExtendAt acc h.1 t
    | _ => none
  | .concat => do
    let r ← pr.1 h.2
    match r with
    | .bytesList xs =>
      match cLookup acc h.1 with
      | none => some (acc ++ [(h.1, .bytesList xs)])
      | some (.bytesList xs0) => some (cUpdate acc h.1 (.bytesList (xs0 ++ xs)))
      | some _ => none
    | _ => none
  | .merge_none => do
    let r ← pr.1 h.2
    match cLookup acc h.1 with
    | none => some (acc ++ [(h.1, r)])
    | some _ => some (cUpdate acc h.1 r)

/-- Python `collect`: fold the header list left to right applying each
name's parser and merge strategy. -/
def collect (headers : List Header) : Option Collection :=
  headers.foldlM collectStep []

/-- Lookup in a cookie mapping (Python `m[k]` on the name). -/
def tLookup (m : CookieMap) (k : Bytes) : Option (List Bytes) :=
  (m.find? (fun p => p.1 = k)).map (·.2)

/-- All values registered under one name across a cookie mapping, in
entry order (proof helper for reasoning about runs of `tExtend`). -/
def tVals (t : CookieMap) (n : Bytes) : List Bytes :=
  ((t.filter (fun p => p.1 = n)).map Prod.snd).flatten

/-- Effect of a run of APPEND merges on one key of the collection: the
decoded records are appended to the existing list, a fresh list being
created when the key is absent. -/
def mergeRecOpt (o : Option PyVal) (rs : List SetCookieRecord) : Option PyVal :=
  match o with
  | some (.recordList xs) => some (.recordList (xs ++ rs))
  | none => if rs.isEmpty then none else some (.recordList rs)
  | some v => some v

/-- Effect of a run of EXTEND merges on one key of the collection: the
parsed cookie tables are deep-merged left to right into the existing
table, starting from an empty table when the key is absent. -/
def mergeTblOpt (o : Option PyVal) (ts : List CookieMap) : Option PyVal :=
  match o with
  | some (.table t0) => some (.table (ts.foldl tMerge t0))
  | none => if ts.isEmpty then none else some (.table (ts.foldl tMerge []))
  | some v => some v

/-! ## Theorems -/

theorem charDigit_digitChar (d : Nat) (h : d < 10) : charDigit (digitChar d) = some d := by
  interval_cases d <;> rfl

theorem matchTwoDigits_append (n : Nat) (h : n < 100) (r : Bytes) :
    matchTwoDigits (twoDigits n ++ r) = some (n, r) := by
  have h1 : n / 10 < 10 := by omega
  have h2 : n % 10 < 10 := by omega
  simp [twoDigits, matchTwoDigits, charDigit_digitChar _ h1, charDigit_digitChar _ h2]
  omega

theorem matchFourDigits_append (n : Nat) (h : n < 10000) (r : Bytes) :
    matchFourDigits (fourDigits n ++ r) = some (n, r) := by
  have h1 : n / 1000 < 10 := by omega
  have h2 : n / 100 % 10 < 10 := by omega
  have h3 : n / 10 % 10 < 10 := by omega
  have h4 : n % 10 < 10 := by omega
  simp [fourDigits, matchFourDigits, charDigit_digitChar _ h1, charDigit_digitChar _ h2,
    charDigit_digitChar _ h3, charDigit_digitChar _ h4]
  omega

theorem matchDayName_append (i : Nat) (h : i < 7) (r : Bytes) :
    matchDayName (dayNameChars i ++ r) = some (i, r) := by
  interval_cases i <;> rfl

theorem matchMonthName_append (i : Nat) (h : i < 12) (r : Bytes) :
    matchMonthName (monthNameChars i ++ r) = some (i, r) := by
  interval_cases i <;> rfl

theorem matchChar_cons (c : Char) (r : Bytes) : matchChar c (c :: r) = some r := by
  simp [matchChar]

theorem daysInMonth_le_31 (y m : Nat) : daysInMonth y m ≤ 31 := by
  unfold daysInMonth
  split <;> first | omega | split <;> omega

theorem matchDayPrefix_render (i d : Nat) (hi : i < 7) (hd : d < 100) (r : Bytes) :
    matchDayPrefix (dayNameChars i ++ ',' :: ' ' :: (twoDigits d ++ r)) = some (d, r) := by
  simp [matchDayPrefix, matchDayName_append i hi, matchChar_cons,
    matchTwoDigits_append d hd]

theorem matchMonthYear_render7231 (mon year : Nat) (hm : mon < 12) (hy : year < 10000)
    (r : Bytes) :
    matchMonthYear ' ' matchFourDigits
      (' ' :: (monthNameChars mon ++ ' ' :: (fourDigits year ++ r))) =
      some (mon, year, r) := by
  simp [matchMonthYear, matchChar_cons, matchMonthName_append mon hm,
    matchFourDigits_append year hy]

theorem matchTimeGMT_render (h m s : Nat) (hh : h < 100) (hm : m < 100) (hs : s < 100) :
    matchTimeGMT (twoDigits h ++ ':' :: (twoDigits m ++ ':' ::
      (twoDigits s ++ [' ', 'G', 'M', 'T']))) = some (h, m, s) := by
  simp [matchTimeGMT, matchTwoDigits_append h hh, matchChar_cons,
    matchTwoDigits_append m hm, matchTwoDigits_append s hs, matchGMTEnd]

theorem mkDatetime_wf (p : DateParts) (h : p.wf) :
    mkDatetime p.year (p.mon + 1) p.day p.hour p.minute p.second = some p.toDateTime := by
  obtain ⟨h1, h2, h3, h4, h5, h6, h7, h8, h9⟩ := h
  simp [mkDatetime, DateParts.toDateTime]
  omega

theorem parseRFC7231_render (p : DateParts) (h : p.wf) :
    parseRFC7231 (renderRFC7231 p) = some p.toDateTime := by
  obtain ⟨h1, h2, h3, h4, h5, h6, h7, h8, h9⟩ := h
  have hd : p.day < 100 := by
    have := daysInMonth_le_31 p.year (p.mon + 1); omega
  have hren : renderRFC7231 p =
      dayNameChars p.dow ++ ',' :: ' ' :: (twoDigits p.day ++
        ' ' :: (monthNameChars p.mon ++ ' ' :: (fourDigits p.year ++
          ' ' :: (twoDigits p.hour ++ ':' :: (twoDigits p.minute ++ ':' ::
            (twoDigits p.second ++ [' ', 'G', 'M', 'T'])))))) := by
    simp [renderRFC7231, List.append_assoc]
  rw [hren]
  simp [parseRFC7231, matchDayPrefix_render p.dow p.day h1 hd,
    matchMonthYear_render7231 p.mon p.year h2 (show p.year < 10000 by omega),
    matchChar_cons,
    matchTimeGMT_render p.hour p.minute p.second (by omega) (by omega) (by omega),
    mkDatetime_wf p ⟨h1, h2, h3, h4, h5, h6, h7, h8, h9⟩]

theorem format_date_render (p : DateParts) (hdow : p.dow = pyWeekday p.toDateTime) :
    format_date p.toDateTime = renderRFC7231 p := by
  simp only [format_date]
  rw [← hdow]
  simp [renderRFC7231, DateParts.toDateTime]

/-- C3 amended: round trip holds for the modern-form strings whose
day-of-week name agrees with the date. -/
theorem parse_format_roundtrip_modern (p : DateParts) (hwf : p.wf)
    (hdow : p.dow = pyWeekday p.toDateTime) :
    parse_date (renderRFC7231 p) = some p.toDateTime ∧
    format_date p.toDateTime = renderRFC7231 p := by
  refine ⟨?_, format_date_render p hdow⟩
  simp [parse_date, parseRFC7231_render p hwf]

/-- C3 counterexample: wrong day-of-week name breaks the round trip. -/
theorem parse_format_no_roundtrip :
    parse_date "Mon, 01 Jan 2000 00:00:00 GMT".data =
      some ⟨2000, 1, 1, 0, 0, 0⟩ ∧
    format_date ⟨2000, 1, 1, 0, 0, 0⟩ = "Sat, 01 Jan 2000 00:00:00 GMT".data ∧
    ("Sat, 01 Jan 2000 00:00:00 GMT".data : Bytes) ≠
      "Mon, 01 Jan 2000 00:00:00 GMT".data := by
  refine ⟨by decide, by decide, by decide⟩

theorem parse_format_roundtrip_modern_witness :
    dpWitness.wf ∧ dpWitness.dow = pyWeekday dpWitness.toDateTime ∧
    (parse_date (renderRFC7231 dpWitness) = some dpWitness.toDateTime ∧
      format_date dpWitness.toDateTime = renderRFC7231 dpWitness) :=
  ⟨by decide, by decide, parse_format_roundtrip_modern dpWitness (by decide) (by decide)⟩

theorem consHead_ne_nil (x : Char) (l : List Bytes) : consHead x l ≠ [] := by
  cases l <;> simp [consHead]

theorem consHead_length (x : Char) (l : List Bytes) (h : l ≠ []) :
    (consHead x l).length = l.length := by
  cases l with
  | nil => exact absurd rfl h
  | cons p ps => simp [consHead]

theorem pySplitMax_ne_nil (c : Char) (n : Nat) (s : Bytes) : pySplitMax c n s ≠ [] := by
  induction s generalizing n with
  | nil => simp [pySplitMax]
  | cons x xs ih =>
    cases n with
    | zero => simp [pySplitMax]
    | succ m =>
      by_cases hx : x = c
      · simp [pySplitMax, hx]
      · simp only [pySplitMax, if_neg hx]
        exact consHead_ne_nil _ _

theorem pySplitMax_length (c : Char) (n : Nat) (s : Bytes) :
    (pySplitMax c n s).length = min (s.count c) n + 1 := by
  induction s generalizing n with
  | nil => simp [pySplitMax]
  | cons x xs ih =>
    cases n with
    | zero => simp [pySplitMax]
    | succ m =>
      by_cases hx : x = c
      · subst hx
        simp [pySplitMax, ih, List.count_cons]
        omega
      · rw [pySplitMax, if_neg hx, consHead_length _ _ (pySplitMax_ne_nil c (m + 1) xs),
          ih, List.count_cons]
        simp [hx]

theorem pySplit1_ne_nil (c : Char) (s : Bytes) : pySplit1 c s ≠ [] := by
  induction s with
  | nil => simp [pySplit1]
  | cons x xs ih =>
    by_cases hx : x = c
    · simp [pySplit1, hx]
    · simp only [pySplit1, if_neg hx]
      exact consHead_ne_nil _ _

theorem pySplit1_eq_single (c : Char) (s : Bytes) (h : c ∉ s) : pySplit1 c s = [s] := by
  induction s with
  | nil => rfl
  | cons x xs ih =>
    have hx : ¬x = c := fun he => h (he ▸ List.mem_cons_self x xs)
    have hxs : c ∉ xs := fun hm => h (List.mem_cons_of_mem x hm)
    rw [pySplit1, if_neg hx, ih hxs]
    rfl

/-- Shared first half of the C10 statement: a first `;`-segment with two
or more `=` makes `decode_set_cookie` raise. -/
theorem decode_set_cookie_two_eq (s first : Bytes) (items : List Bytes)
    (h : pySplit1 ';' s = first :: items) (hc : 2 ≤ first.count '=') :
    decode_set_cookie s = none := by
  have hlen : (pySplitMax '=' 2 first).length = 3 := by
    rw [pySplitMax_length]
    omega
  obtain ⟨a, b, c, habc⟩ := List.length_eq_three.mp hlen
  simp [decode_set_cookie, h, habc]

/-- C10 amended: the failure is universal over inputs whose first
`;`-segment carries two or more `=`; through the encoder it holds for
every `;`-free name and every `;`-free value containing `=` (a value
whose `=` only comes after a `;` decodes without error instead). -/
theorem decode_encode_set_cookie_fails :
    (∀ s first items, pySplit1 ';' s = first :: items → 2 ≤ first.count '=' →
      decode_set_cookie s = none) ∧
    (∀ name value e, ';' ∉ name → ';' ∉ value → '=' ∈ value →
      encode_set_cookie name value {} = .ok e → decode_set_cookie e = none) := by
  refine ⟨decode_set_cookie_two_eq, ?_⟩
  intro name value e hn hv hev henc
  rw [encode_set_cookie] at henc
  split at henc
  · exact absurd henc (by simp)
  · simp only [Except.ok.injEq] at henc
    have he : e = name ++ '=' :: value := henc.symm
    have hsem : ';' ∉ e := by
      subst he
      intro hm
      rcases List.mem_append.mp hm with h1 | h2
      · exact hn h1
      · rcases List.mem_cons.mp h2 with h3 | h4
        · exact absurd h3 (by decide)
        · exact hv h4
    have hcount : 2 ≤ e.count '=' := by
      subst he
      rw [List.count_append, List.count_cons]
      have h1 : 0 < value.count '=' := List.count_pos_iff.mpr hev
      simp
      omega
    exact decode_set_cookie_two_eq e e [] (pySplit1_eq_single ';' e hsem) hcount

/-- C10 counterexample: a value containing `=` but shielded by an
earlier `;` makes `decode_set_cookie(encode_set_cookie(name, value))`
return a record instead of failing. -/
theorem decode_encode_set_cookie_succeeds_past_semicolon :
    encode_set_cookie "n".data "a;b=c".data {} = .ok "n=a;b=c".data ∧
    '=' ∈ "a;b=c".data ∧
    decode_set_cookie "n=a;b=c".data =
      some ⟨"n".data, "a".data, none, none, false, false, none,
        [("b".data, "c".data)]⟩ := by
  refine ⟨by rfl, by decide, by decide⟩

theorem decode_encode_set_cookie_fails_witness :
    decode_set_cookie "a=b=c;x".data = none ∧
    encode_set_cookie "n".data "a=b".data {} = .ok "n=a=b".data ∧
    decode_set_cookie "n=a=b".data = none :=
  ⟨decode_encode_set_cookie_fails.1 "a=b=c;x".data "a=b=c".data ["x".data]
      (by decide) (by decide),
    by rfl,
    decode_encode_set_cookie_fails.2 "n".data "a=b".data "n=a=b".data
      (by decide) (by decide) (by decide) (by rfl)⟩

theorem consHead_cons (x : Char) (p : Bytes) (ps : List Bytes) :
    consHead x (p :: ps) = (x :: p) :: ps := rfl

theorem pyPartition_no_sep_append (c : Char) (n v : Bytes) (h : c ∉ n) :
    pyPartition c (n ++ c :: v) = (n, true, v) := by
  induction n with
  | nil => simp [pyPartition]
  | cons x xs ih =>
    have hx : ¬x = c := fun he => h (he ▸ List.mem_cons_self x xs)
    have hxs : c ∉ xs := fun hm => h (List.mem_cons_of_mem x hm)
    simp [pyPartition, hx, ih hxs]

theorem pySplit2_no_sep (c₁ c₂ : Char) (p : Bytes) (h : ∀ x ∈ p, x ≠ c₁) :
    pySplit2 c₁ c₂ p = [p] := by
  induction p with
  | nil => rfl
  | cons x xs ih =>
    cases xs with
    | nil => rfl
    | cons y ys =>
      have hx : x ≠ c₁ := h x (List.mem_cons_self x _)
      have htail : ∀ z ∈ y :: ys, z ≠ c₁ := fun z hz => h z (List.mem_cons_of_mem x hz)
      rw [pySplit2, if_neg (fun hcont => hx hcont.1), ih htail, consHead_cons]

theorem pySplit2_append_sep (c₁ c₂ : Char) (p t : Bytes) (h : ∀ x ∈ p, x ≠ c₁) :
    pySplit2 c₁ c₂ (p ++ c₁ :: c₂ :: t) = p :: pySplit2 c₁ c₂ t := by
  induction p with
  | nil => simp [pySplit2]
  | cons x xs ih =>
    have hx : x ≠ c₁ := h x (List.mem_cons_self x _)
    have htail : ∀ z ∈ xs, z ≠ c₁ := fun z hz => h z (List.mem_cons_of_mem x hz)
    cases xs with
    | nil =>
      rw [List.cons_append, List.nil_append, pySplit2,
        if_neg (fun hcont => hx hcont.1)]
      rw [show pySplit2 c₁ c₂ (c₁ :: c₂ :: t) = [] :: pySplit2 c₁ c₂ t by
        rw [pySplit2, if_pos ⟨rfl, rfl⟩]]
      rfl
    | cons y ys =>
      rw [List.cons_append,
        show (y :: ys) ++ c₁ :: c₂ :: t = y :: (ys ++ c₁ :: c₂ :: t) by simp,
        pySplit2, if_neg (fun hcont => hx hcont.1),
        show y :: (ys ++ c₁ :: c₂ :: t) = (y :: ys) ++ c₁ :: c₂ :: t by simp,
        ih htail, consHead_cons]

theorem joinSep_ne_nil (sep : Bytes) (ps : List Bytes) (hps : ps ≠ [])
    (hne : ∀ p ∈ ps, p ≠ []) : joinSep sep ps ≠ [] := by
  cases ps with
  | nil => exact absurd rfl hps
  | cons p qs =>
    cases qs with
    | nil => exact hne p (List.mem_cons_self p _)
    | cons q rest =>
      rw [joinSep]
      have : p ≠ [] := hne p (List.mem_cons_self p _)
      simp [this]

theorem getLast?_joinSep_mem (sep : Bytes) (ps : List Bytes)
    (hne : ∀ p ∈ ps, p ≠ []) :
    ∀ c, (joinSep sep ps).getLast? = some c → ∃ p ∈ ps, p.getLast? = some c := by
  induction ps with
  | nil => intro c hc; simp [joinSep] at hc
  | cons p qs ih =>
    intro c hc
    cases qs with
    | nil =>
      exact ⟨p, List.mem_cons_self p _, hc⟩
    | cons q rest =>
      rw [joinSep] at hc
      have hqs : ∀ x ∈ q :: rest, x ≠ [] := fun x hx => hne x (List.mem_cons_of_mem p hx)
      have hj : joinSep sep (q :: rest) ≠ [] := joinSep_ne_nil sep _ (by simp) hqs
      rw [List.getLast?_append] at hc
      obtain ⟨z, hz⟩ : ∃ z, (joinSep sep (q :: rest)).getLast? = some z := by
        cases hg : (joinSep sep (q :: rest)).getLast? with
        | none => exact absurd (List.getLast?_eq_none_iff.mp hg) hj
        | some z => exact ⟨z, rfl⟩
      rw [hz] at hc
      have hc' : (some z : Option Char) = some c := hc
      obtain ⟨x, hx, hxl⟩ := ih hqs c (hz.trans hc')
      exact ⟨x, List.mem_cons_of_mem p hx, hxl⟩

theorem pyRstripSet_id (chars : List Char) (s : Bytes)
    (h : ∀ c, s.getLast? = some c → c ∉ chars) : pyRstripSet chars s = s := by
  rw [pyRstripSet]
  cases hrev : s.reverse with
  | nil =>
    rw [List.reverse_eq_nil_iff] at hrev
    simp [hrev]
  | cons c rest =>
    have hc : s.getLast? = some c := by
      rw [← List.head?_reverse, hrev]
      rfl
    have hcn : c ∉ chars := h c hc
    calc (List.dropWhile (fun x => decide (x ∈ chars)) (c :: rest)).reverse
        = (c :: rest).reverse := by
          rw [List.dropWhile_cons, if_neg (by simp [hcn])]
      _ = s := by rw [← hrev, List.reverse_reverse]

theorem pySplit2_joinSep (c₁ c₂ : Char) (ps : List Bytes) (hps : ps ≠ [])
    (h : ∀ p ∈ ps, ∀ x ∈ p, x ≠ c₁) :
    pySplit2 c₁ c₂ (joinSep [c₁, c₂] ps) = ps := by
  induction ps with
  | nil => exact absurd rfl hps
  | cons p qs ih =>
    cases qs with
    | nil => exact pySplit2_no_sep c₁ c₂ p (h p (List.mem_cons_self p _))
    | cons q rest =>
      rw [joinSep]
      have hshape : p ++ [c₁, c₂] ++ joinSep [c₁, c₂] (q :: rest) =
          p ++ c₁ :: c₂ :: joinSep [c₁, c₂] (q :: rest) := by simp
      rw [hshape, pySplit2_append_sep c₁ c₂ p _ (h p (List.mem_cons_self p _))]
      rw [ih (by simp) (fun x hx => h x (List.mem_cons_of_mem p hx))]

theorem dictAppend_not_mem (acc : CookieMap) (k : Bytes) (v : Bytes)
    (h : k ∉ acc.map Prod.fst) : dictAppend acc k v = acc ++ [(k, [v])] := by
  induction acc with
  | nil => rfl
  | cons p ps ih =>
    have hk : ¬p.1 = k := by
      intro he; exact h (by simp [he])
    rw [dictAppend]
    simp only [hk, if_neg]
    rw [ih (fun hm => h (List.mem_cons_of_mem _ hm))]
    rfl

theorem dictAppend_last (acc : CookieMap) (k : Bytes) (vs : List Bytes) (v : Bytes)
    (h : k ∉ acc.map Prod.fst) :
    dictAppend (acc ++ [(k, vs)]) k v = acc ++ [(k, vs ++ [v])] := by
  induction acc with
  | nil => simp [dictAppend]
  | cons p ps ih =>
    have hk : ¬p.1 = k := by
      intro he; exact h (by simp [he])
    rw [List.cons_append, dictAppend]
    simp only [hk, if_neg]
    rw [ih (fun hm => h (List.mem_cons_of_mem _ hm))]
    rfl

theorem foldl_dictAppend_same_key (k : Bytes) (rest : List Bytes) :
    ∀ (acc : CookieMap) (grp : List Bytes), k ∉ acc.map Prod.fst →
    List.foldl (fun a pr => dictAppend a pr.1 pr.2) (acc ++ [(k, grp)])
      (rest.map (fun v => (k, v))) = acc ++ [(k, grp ++ rest)] := by
  induction rest with
  | nil => intro acc grp _; simp
  | cons v vs ih =>
    intro acc grp hk
    rw [List.map_cons, List.foldl_cons]
    simp only
    rw [dictAppend_last acc k grp v hk, ih acc (grp ++ [v]) hk]
    simp

theorem foldl_dictAppend_pairs (m : CookieMap) :
    ∀ (acc : CookieMap), (m.map Prod.fst).Nodup →
    (∀ k ∈ m.map Prod.fst, k ∉ acc.map Prod.fst) →
    (∀ p ∈ m, p.2 ≠ []) →
    List.foldl (fun a pr => dictAppend a pr.1 pr.2) acc
      (m.flatMap (fun p => p.2.map (fun v => (p.1, v)))) = acc ++ m := by
  induction m with
  | nil => intro acc _ _ _; simp
  | cons p ps ih =>
    intro acc hnd hdisj hvals
    rw [List.flatMap_cons, List.foldl_append]
    have hk : p.1 ∉ acc.map Prod.fst :=
      hdisj p.1 (by simp)
    obtain ⟨v, vs, hv⟩ : ∃ v vs, p.2 = v :: vs := by
      cases hp2 : p.2 with
      | nil => exact absurd hp2 (hvals p (List.mem_cons_self p _))
      | cons v vs => exact ⟨v, vs, rfl⟩
    have hfirst : List.foldl (fun a pr => dictAppend a pr.1 pr.2) acc
        (p.2.map (fun v => (p.1, v))) = acc ++ [(p.1, p.2)] := by
      rw [hv, List.map_cons, List.foldl_cons]
      simp only
      rw [dictAppend_not_mem acc p.1 v hk]
      rw [foldl_dictAppend_same_key p.1 vs acc [v] hk]
      simp
    rw [hfirst]
    have hnd' : (ps.map Prod.fst).Nodup := by
      rw [List.map_cons] at hnd
      exact (List.nodup_cons.mp hnd).2
    have hdisj' : ∀ k ∈ ps.map Prod.fst, k ∉ (acc ++ [(p.1, p.2)]).map Prod.fst := by
      intro k hkm hmem
      rw [List.map_append] at hmem
      rcases List.mem_append.mp hmem with h1 | h2
      · exact hdisj k (List.mem_cons_of_mem _ hkm) h1
      · have : k = p.1 := by simpa using h2
        subst this
        rw [List.map_cons] at hnd
        exact (List.nodup_cons.mp hnd).1 hkm
    rw [ih (acc ++ [(p.1, p.2)]) hnd' hdisj'
      (fun q hq => hvals q (List.mem_cons_of_mem p hq))]
    simp

theorem foldl_decode_pieces (m : CookieMap) (hnames : ∀ p ∈ m, '=' ∉ p.1) :
    ∀ acc, List.foldl
      (fun acc morsel =>
        let p := pyPartition '=' morsel
        dictAppend acc p.1 p.2.2) acc
      (m.flatMap (fun p => p.2.map (fun v => p.1 ++ '=' :: v))) =
    List.foldl (fun a pr => dictAppend a pr.1 pr.2) acc
      (m.flatMap (fun p => p.2.map (fun v => (p.1, v)))) := by
  induction m with
  | nil => intro acc; rfl
  | cons p ps ih =>
    intro acc
    rw [List.flatMap_cons, List.flatMap_cons, List.foldl_append, List.foldl_append]
    rw [List.foldl_map, List.foldl_map]
    have hbody : ∀ (a : CookieMap), ∀ v ∈ p.2,
        (fun acc morsel =>
          let q := pyPartition '=' morsel
          dictAppend acc q.1 q.2.2) a (p.1 ++ '=' :: v) =
        (fun a pr => dictAppend a pr.1 pr.2) a (p.1, v) := by
      intro a v _
      simp only [pyPartition_no_sep_append '=' p.1 v (hnames p (List.mem_cons_self p _))]
    rw [List.foldl_ext _ _ acc hbody]
    exact ih (fun q hq => hnames q (List.mem_cons_of_mem p hq)) _

/-- C4: for cookie maps with distinct names, non-empty value lists, and
names/values free of the separator characters (names additionally free
of `=`), decoding the encoding reconstructs the map exactly. -/
theorem decode_encode_cookies_roundtrip (m : CookieMap)
    (hne : m ≠ [])
    (hnodup : (m.map Prod.fst).Nodup)
    (hvals : ∀ p ∈ m, p.2 ≠ [])
    (hnames : ∀ p ∈ m, ∀ c ∈ p.1, c ≠ ';' ∧ c ≠ ' ' ∧ c ≠ '=')
    (hvalchars : ∀ p ∈ m, ∀ v ∈ p.2, ∀ c ∈ v, c ≠ ';' ∧ c ≠ ' ') :
    decode_cookies (encode_cookies m) = m := by
  classical
  set pieces := m.flatMap (fun p => p.2.map (fun v => p.1 ++ '=' :: v)) with hpieces
  have hmem : ∀ q ∈ pieces, ∃ p ∈ m, ∃ v ∈ p.2, q = p.1 ++ '=' :: v := by
    intro q hq
    rw [hpieces] at hq
    obtain ⟨p, hp, hq2⟩ := List.mem_flatMap.mp hq
    obtain ⟨v, hv, he⟩ := List.mem_map.mp hq2
    exact ⟨p, hp, v, hv, he.symm⟩
  have hpieces_ne : ∀ q ∈ pieces, q ≠ [] := by
    intro q hq
    obtain ⟨p, _, v, _, he⟩ := hmem q hq
    subst he
    simp
  have hpieces_chars : ∀ q ∈ pieces, ∀ x ∈ q, x ≠ ';' := by
    intro q hq x hx
    obtain ⟨p, hp, v, hv, he⟩ := hmem q hq
    subst he
    rcases List.mem_append.mp hx with h1 | h2
    · exact (hnames p hp x h1).1
    · rcases List.mem_cons.mp h2 with h3 | h4
      · subst h3; decide
      · exact (hvalchars p hp v hv x h4).1
  have hpieces_last : ∀ q ∈ pieces, ∀ c, q.getLast? = some c → c ∉ [';', ' '] := by
    intro q hq c hc
    obtain ⟨p, hp, v, hv, he⟩ := hmem q hq
    subst he
    rw [List.getLast?_append] at hc
    obtain ⟨z, hz⟩ : ∃ z, (('=' :: v).getLast?) = some z := by
      cases v <;> simp [List.getLast?]
    rw [hz] at hc
    have hc' : (some z : Option Char) = some c := hc
    have hzc : ('=' :: v).getLast? = some c := hz.trans hc'
    have hcm : c ∈ '=' :: v := by
      obtain ⟨hne2, heq⟩ := List.mem_getLast?_eq_getLast (by simpa using hzc)
      exact heq ▸ List.getLast_mem hne2
    rcases List.mem_cons.mp hcm with h3 | h4
    · subst h3; decide
    · intro hmem2
      rcases List.mem_cons.mp hmem2 with h5 | h6
      · exact ((hvalchars p hp v hv c h4).1) h5
      · have h7 : c = ' ' := by simpa using h6
        exact ((hvalchars p hp v hv c h4).2) h7
  have hpieces_nonempty : pieces ≠ [] := by
    rw [hpieces]
    cases m with
    | nil => exact absurd rfl hne
    | cons p ps =>
      cases hp2 : p.2 with
      | nil => exact absurd hp2 (hvals p (List.mem_cons_self p _))
      | cons v vs => simp [hp2]
  rw [encode_cookies, decode_cookies, ← hpieces]
  rw [pyRstripSet_id [';', ' '] _ (fun c hc => by
    obtain ⟨q, hq, hql⟩ := getLast?_joinSep_mem _ pieces hpieces_ne c hc
    exact hpieces_last q hq c hql)]
  rw [pySplit2_joinSep ';' ' ' pieces hpieces_nonempty hpieces_chars]
  rw [hpieces]
  rw [foldl_decode_pieces m
    (fun p hp hm => ((hnames p hp '=' hm).2.2) rfl) []]
  rw [foldl_dictAppend_pairs m [] hnodup (by simp) hvals]
  simp

theorem decode_encode_cookies_roundtrip_witness :
    decode_cookies (encode_cookies
      [("a".data, ["1".data]), ("b".data, ["2".data, "3".data])]) =
      [("a".data, ["1".data]), ("b".data, ["2".data, "3".data])] :=
  decode_encode_cookies_roundtrip
    [("a".data, ["1".data]), ("b".data, ["2".data, "3".data])]
    (by decide) (by decide) (by decide) (by decide) (by decide)

theorem find?_quality_min (pr : Bytes × Rat → Bool) (l : List (Bytes × Rat))
    (r : Bytes × Rat)
    (hsorted : List.Pairwise (fun a b => qualityLE a b = true) l)
    (hfind : l.find? pr = some r) :
    ∀ y ∈ l, pr y = true → r.2 ≤ y.2 := by
  induction l with
  | nil => simp at hfind
  | cons x xs ih =>
    rw [List.find?_cons] at hfind
    rcases List.pairwise_cons.mp hsorted with ⟨hhead, htail⟩
    by_cases hpx : pr x
    · simp [hpx] at hfind
      subst hfind
      intro y hy _
      rcases List.mem_cons.mp hy with h1 | h2
      · subst h1; exact le_refl _
      · have := hhead y h2
        simpa [qualityLE] using this
    · simp [hpx] at hfind
      intro y hy hpy
      rcases List.mem_cons.mp hy with h1 | h2
      · subst h1; exact absurd hpy hpx
      · exact ih htail hfind y h2 hpy

theorem qualityLE_trans : ∀ a b c : Bytes × Rat,
    qualityLE a b = true → qualityLE b c = true → qualityLE a c = true := by
  intro a b c hab hbc
  simp only [qualityLE, decide_eq_true_eq] at *
  exact le_trans hab hbc

theorem qualityLE_total : ∀ a b : Bytes × Rat,
    (qualityLE a b || qualityLE b a) = true := by
  intro a b
  simp only [qualityLE, Bool.or_eq_true, decide_eq_true_eq]
  exact le_total _ _

/-- C5: whenever some non-identity encoding with non-zero quality is
registered in the compressor map, `select_encoding` returns such an
encoding, and its quality is minimal among all encodings satisfying
those conditions (ascending stable sort by quality, first registered
entry). -/
theorem select_encoding_picks_min_quality (compressors : List Bytes) (ae : QualityMap)
    (cand : Bytes × Rat) (hc : cand ∈ ae) (hq : cand.2 ≠ 0)
    (hid : cand.1 ≠ "identity".data) (hreg : compressors.contains cand.1) :
    ∃ r q, select_encoding compressors ae = some r ∧ (r, q) ∈ ae ∧ q ≠ 0 ∧
      r ≠ "identity".data ∧ compressors.contains r ∧
      ∀ p ∈ ae, p.2 ≠ 0 → p.1 ≠ "identity".data → compressors.contains p.1 →
        q ≤ p.2 := by
  classical
  set flt := ae.filter (fun p => p.2 ≠ 0 ∧ p.1 ≠ "identity".data) with hflt
  set l := flt.mergeSort qualityLE with hl
  have hmem_l : ∀ p : Bytes × Rat,
      (p ∈ l ↔ p ∈ ae ∧ p.2 ≠ 0 ∧ p.1 ≠ "identity".data) := by
    intro p
    rw [hl, (List.mergeSort_perm flt qualityLE).mem_iff, hflt, List.mem_filter]
    simp
  have hcand_l : cand ∈ l := (hmem_l cand).mpr ⟨hc, hq, hid⟩
  have hfs : (l.find? (fun p => compressors.contains p.1)).isSome :=
    List.find?_isSome.mpr ⟨cand, hcand_l, hreg⟩
  obtain ⟨r0, hfind⟩ := Option.isSome_iff_exists.mp hfs
  have hr0l : r0 ∈ l := List.mem_of_find?_eq_some hfind
  obtain ⟨hr0ae, hr0q, hr0id⟩ := (hmem_l r0).mp hr0l
  have hr0reg : compressors.contains r0.1 = true := by
    have h := List.find?_some hfind
    simpa using h
  have hsorted : List.Pairwise (fun a b => qualityLE a b = true) l :=
    List.sorted_mergeSort qualityLE_trans qualityLE_total flt
  refine ⟨r0.1, r0.2, ?_, by simpa using hr0ae, hr0q, hr0id, hr0reg, ?_⟩
  · rw [select_encoding, ← hflt, ← hl, hfind]
    rfl
  · intro p hp hpq hpid hpreg
    exact find?_quality_min _ l r0 hsorted hfind p ((hmem_l p).mpr ⟨hp, hpq, hpid⟩) hpreg

theorem select_encoding_picks_min_quality_witness :
    ∃ r q,
      select_encoding ["gzip".data, "deflate".data]
        [("br".data, (2 : Rat)), ("gzip".data, (3 : Rat)), ("deflate".data, (1 : Rat))] =
        some r ∧
      (r, q) ∈ [("br".data, (2 : Rat)), ("gzip".data, (3 : Rat)),
        ("deflate".data, (1 : Rat))] ∧
      q ≠ 0 ∧ r ≠ "identity".data ∧
      (["gzip".data, "deflate".data] : List Bytes).contains r ∧
      ∀ p ∈ [("br".data, (2 : Rat)), ("gzip".data, (3 : Rat)),
        ("deflate".data, (1 : Rat))], p.2 ≠ 0 → p.1 ≠ "identity".data →
        (["gzip".data, "deflate".data] : List Bytes).contains p.1 → q ≤ p.2 :=
  select_encoding_picks_min_quality ["gzip".data, "deflate".data] _
    ("gzip".data, (3 : Rat)) (by decide) (by decide) (by decide) (by decide)

theorem pyPartition_no_sep (c : Char) (s : Bytes) (h : c ∉ s) :
    pyPartition c s = (s, false, []) := by
  induction s with
  | nil => rfl
  | cons x xs ih =>
    have hx : ¬x = c := fun he => h (he ▸ List.mem_cons_self x xs)
    have hxs : c ∉ xs := fun hm => h (List.mem_cons_of_mem x hm)
    simp [pyPartition, hx, ih hxs]

theorem dropWhile_head_id (p : Char → Bool) (l : Bytes)
    (h : ∀ c, l.head? = some c → p c = false) : l.dropWhile p = l := by
  cases l with
  | nil => rfl
  | cons x xs =>
    rw [List.dropWhile_cons, h x rfl]
    simp

theorem pyLstrip_id (s : Bytes) (h : ∀ c ∈ s, c ∉ pyWhitespace) : pyLstrip s = s := by
  rw [pyLstrip]
  apply dropWhile_head_id
  intro c hc
  have hcm : c ∈ s := by
    cases s with
    | nil => simp at hc
    | cons x xs =>
      have hxc : x = c := by simpa using hc
      subst hxc
      exact List.mem_cons_self _ _
  simp [h c hcm]

theorem pyRstrip_id (s : Bytes) (h : ∀ c ∈ s, c ∉ pyWhitespace) : pyRstrip s = s := by
  rw [pyRstrip]
  rw [dropWhile_head_id _ _ (fun c hc => by
    have hcm : c ∈ s := by
      have hmem : c ∈ s.reverse := by
        cases hrev : s.reverse with
        | nil => rw [hrev] at hc; simp at hc
        | cons x xs =>
          rw [hrev] at hc
          have hxc : x = c := by simpa using hc
          subst hxc
          exact List.mem_cons_self _ _
      simpa using hmem
    simp [h c hcm])]
  simp

theorem pyStrip_id (s : Bytes) (h : ∀ c ∈ s, c ∉ pyWhitespace) : pyStrip s = s := by
  rw [pyStrip, pyLstrip_id s h, pyRstrip_id s h]

theorem foldlM_none {α β : Type} (f : β → α → Option β) (l : List α) (x : α)
    (hx : x ∈ l) (hf : ∀ acc, f acc x = none) :
    ∀ acc, l.foldlM f acc = none := by
  induction l with
  | nil => simp at hx
  | cons y ys ih =>
    intro acc
    rw [List.foldlM_cons]
    rcases List.mem_cons.mp hx with h1 | h2
    · subst h1
      rw [hf acc]
      rfl
    · cases hy : f acc y with
      | none => rfl
      | some acc' =>
        have := ih h2 acc'
        simp [hy, this]

theorem parse_quality_bad_key (rest k val : Bytes)
    (hsplit : pySplit1 '=' rest = [k, val]) (hk : k ≠ "q".data) :
    parse_quality rest = none := by
  have hne : rest ≠ [] := by
    intro he
    subst he
    simp [pySplit1] at hsplit
  rw [parse_quality, if_neg hne, hsplit]
  simp [hk]

theorem parseQualityTokens_bad_token (value : Bytes) (ts : List Bytes)
    (tok first rest k val : Bytes)
    (hts : pySplit2 ',' ' ' value = ts) (htok : tok ∈ ts)
    (hpart : pyPartition ';' tok = (first, true, rest))
    (hsplit : pySplit1 '=' rest = [k, val]) (hk : k ≠ "q".data) :
    parseQualityTokens value = none := by
  rw [parseQualityTokens, hts]
  apply foldlM_none _ ts tok htok
  intro acc
  rw [hpart]
  simp [parse_quality_bad_key rest k val hsplit hk]

theorem foldlM_quality_ones (ts : List Bytes) (h : ∀ t ∈ ts, ';' ∉ t) :
    ∀ acc : QualityMap,
    ts.foldlM
      (fun acc tok =>
        let p := pyPartition ';' tok
        (parse_quality p.2.2).map (fun oq => qAssign acc p.1 (qualityOrOne oq)))
      acc =
    some (ts.foldl (fun a t => qAssign a t 1) acc) := by
  induction ts with
  | nil => intro acc; rfl
  | cons t ts' ih =>
    intro acc
    rw [List.foldlM_cons]
    have hp : pyPartition ';' t = (t, false, []) :=
      pyPartition_no_sep ';' t (h t (List.mem_cons_self t _))
    rw [hp]
    have hih := ih (fun x hx => h x (List.mem_cons_of_mem t hx)) (qAssign acc t 1)
    simpa [parse_quality, qualityOrOne] using hih

theorem qLookup_cons (p : Bytes × Rat) (l : QualityMap) (k : Bytes) :
    qLookup (p :: l) k = if p.1 = k then some p.2 else qLookup l k := by
  rw [qLookup, List.find?_cons]
  by_cases hp : p.1 = k
  · simp [hp]
  · simp [hp, qLookup]

theorem qLookup_qAssign_self (m : QualityMap) (k : Bytes) (v : Rat) :
    qLookup (qAssign m k v) k = some v := by
  induction m with
  | nil => simp [qAssign, qLookup]
  | cons p ps ih =>
    by_cases hp : p.1 = k
    · rw [qAssign, if_pos hp, qLookup_cons]
      simp [hp]
    · rw [qAssign, if_neg hp, qLookup_cons, if_neg hp]
      exact ih

theorem qLookup_qAssign_ne (m : QualityMap) (k k' : Bytes) (v : Rat) (h : k' ≠ k) :
    qLookup (qAssign m k v) k' = qLookup m k' := by
  induction m with
  | nil =>
    rw [qAssign, qLookup_cons]
    simp [Ne.symm h, qLookup]
  | cons p ps ih =>
    by_cases hp : p.1 = k
    · rw [qAssign, if_pos hp, qLookup_cons, qLookup_cons]
      have : ¬p.1 = k' := fun he => h ((he ▸ hp : (k' = k)))
      simp [hp, this, Ne.symm h]
    · rw [qAssign, if_neg hp, qLookup_cons, qLookup_cons, ih]

theorem foldl_qAssign_ones (ts : List Bytes) :
    ∀ (acc : QualityMap) (t : Bytes),
    (t ∈ ts ∨ qLookup acc t = some 1) →
    qLookup (ts.foldl (fun a x => qAssign a x 1) acc) t = some 1 := by
  induction ts with
  | nil =>
    intro acc t ht
    rcases ht with h1 | h2
    · simp at h1
    · simpa using h2
  | cons x xs ih =>
    intro acc t ht
    rw [List.foldl_cons]
    apply ih (qAssign acc x 1) t
    by_cases hx : t = x
    · subst hx
      exact Or.inr (qLookup_qAssign_self acc t 1)
    · rcases ht with h1 | h2
      · rcases List.mem_cons.mp h1 with h3 | h4
        · exact absurd h3 hx
        · exact Or.inl h4
      · exact Or.inr ((qLookup_qAssign_ne acc x t 1 hx).trans h2)

/-- C6 amended: the Accept-Charset, Accept-Encoding and Accept-Language
parsers fail with a grammar error on any token whose qualifier key is
not `q`, and assign quality 1.0 to every token carrying no qualifier;
the Accept parser likewise defaults `q` to 1.0 for a parameterless
token, but it does *not* fail on a non-`q` qualifier — the qualifier is
retained as a parameter of the media type. -/
theorem accept_family_quality_parsing :
    (∀ value ts tok first rest k val ai aw,
      pySplit2 ',' ' ' value = ts → tok ∈ ts →
      pyPartition ';' tok = (first, true, rest) →
      pySplit1 '=' rest = [k, val] → k ≠ "q".data →
      parse_accept_encoding value ai = none ∧
      parse_accept_charset value aw = none ∧
      parse_accept_language value aw = none) ∧
    (∀ ts, ts ≠ [] → (∀ t ∈ ts, ∀ c ∈ t, c ≠ ',' ∧ c ≠ ';') →
      parse_accept_encoding (joinSep [',', ' '] ts) false =
        some (ts.foldl (fun a t => qAssign a t 1) []) ∧
      parse_accept_charset (joinSep [',', ' '] ts) false =
        some (ts.foldl (fun a t => qAssign a t 1) []) ∧
      parse_accept_language (joinSep [',', ' '] ts) false =
        some (ts.foldl (fun a t => qAssign a t 1) []) ∧
      ∀ t ∈ ts, qLookup (ts.foldl (fun a t => qAssign a t 1) []) t = some 1) ∧
    (∀ t, (∀ c ∈ t, c ≠ ',' ∧ c ≠ ';' ∧ c ∉ pyWhitespace) →
      parse_accept t false = some [(t, [("q".data, PVal.f 1)])]) ∧
    (∀ first k v,
      (∀ c ∈ first, c ≠ ',' ∧ c ≠ ';' ∧ c ∉ pyWhitespace) →
      (∀ c ∈ k, c ≠ ',' ∧ c ≠ ';' ∧ c ≠ '=' ∧ c ∉ pyWhitespace) →
      (∀ c ∈ v, c ≠ ',' ∧ c ≠ ';' ∧ c ∉ pyWhitespace) →
      k ≠ "q".data →
      parse_accept (first ++ ';' :: (k ++ '=' :: v)) false =
        some [(first, [(k, PVal.b v)])]) := by
  refine ⟨?_, ?_, ?_, ?_⟩
  · intro value ts tok first rest k val ai aw hts htok hpart hsplit hk
    have hqt : parseQualityTokens value = none :=
      parseQualityTokens_bad_token value ts tok first rest k val hts htok hpart hsplit hk
    refine ⟨?_, ?_, ?_⟩ <;> simp [parse_accept_encoding, parse_accept_charset,
      parse_accept_language, hqt]
  · intro ts hne hchars
    have hsplit : pySplit2 ',' ' ' (joinSep [',', ' '] ts) = ts :=
      pySplit2_joinSep ',' ' ' ts hne (fun p hp x hx => (hchars p hp x hx).1)
    have hqt : parseQualityTokens (joinSep [',', ' '] ts) =
        some (ts.foldl (fun a t => qAssign a t 1) []) := by
      rw [parseQualityTokens, hsplit]
      exact foldlM_quality_ones ts
        (fun t ht hc => ((hchars t ht ';' hc).2) rfl) []
    refine ⟨?_, ?_, ?_, ?_⟩
    · simp [parse_accept_encoding, hqt]
    · simp [parse_accept_charset, hqt]
    · simp [parse_accept_language, hqt]
    · intro t ht
      exact foldl_qAssign_ones ts [] t (Or.inl ht)
  · intro t hchars
    have hsplit : pySplit1 ',' t = [t] :=
      pySplit1_eq_single ',' t (fun hm => ((hchars ',' hm).1) rfl)
    have hstrip : pyStrip t = t := pyStrip_id t (fun c hc => (hchars c hc).2.2)
    have hpart : pyPartition ';' t = (t, false, []) :=
      pyPartition_no_sep ';' t (fun hm => ((hchars ';' hm).2.1) rfl)
    rw [parse_accept]
    simp [hsplit, List.foldlM_cons, hstrip, hpart, parse_accept_params, aLookup,
      aAssign]
  · intro first k v hfirst hk hv hkq
    have htok : (first ++ ';' :: (k ++ '=' :: v)) =
        (first ++ ';' :: (k ++ '=' :: v)) := rfl
    have hnocomma : ',' ∉ first ++ ';' :: (k ++ '=' :: v) := by
      intro hm
      rcases List.mem_append.mp hm with h1 | h2
      · exact ((hfirst ',' h1).1) rfl
      · rcases List.mem_cons.mp h2 with h3 | h4
        · exact absurd h3.symm (by decide)
        · rcases List.mem_append.mp h4 with h5 | h6
          · exact ((hk ',' h5).1) rfl
          · rcases List.mem_cons.mp h6 with h7 | h8
            · exact absurd h7.symm (by decide)
            · exact ((hv ',' h8).1) rfl
    have hsplit : pySplit1 ',' (first ++ ';' :: (k ++ '=' :: v)) =
        [first ++ ';' :: (k ++ '=' :: v)] :=
      pySplit1_eq_single ',' _ hnocomma
    have hnows : ∀ c ∈ first ++ ';' :: (k ++ '=' :: v), c ∉ pyWhitespace := by
      intro c hm
      rcases List.mem_append.mp hm with h1 | h2
      · exact (hfirst c h1).2.2
      · rcases List.mem_cons.mp h2 with h3 | h4
        · subst h3; decide
        · rcases List.mem_append.mp h4 with h5 | h6
          · exact (hk c h5).2.2.2
          · rcases List.mem_cons.mp h6 with h7 | h8
            · subst h7; decide
            · exact (hv c h8).2.2
    have hstrip : pyStrip (first ++ ';' :: (k ++ '=' :: v)) =
        first ++ ';' :: (k ++ '=' :: v) := pyStrip_id _ hnows
    have hpart : pyPartition ';' (first ++ ';' :: (k ++ '=' :: v)) =
        (first, true, k ++ '=' :: v) :=
      pyPartition_no_sep_append ';' first _ (fun hm => ((hfirst ';' hm).2.1) rfl)
    have hparams : parse_accept_params (k ++ '=' :: v) = some [(k, PVal.b v)] := by
      have hpne : k ++ '=' :: v ≠ [] := by
        cases k <;> simp
      have hsplitp : pySplit1 ';' (k ++ '=' :: v) = [k ++ '=' :: v] := by
        apply pySplit1_eq_single
        intro hm
        rcases List.mem_append.mp hm with h1 | h2
        · exact ((hk ';' h1).2.1) rfl
        · rcases List.mem_cons.mp h2 with h3 | h4
          · exact absurd h3.symm (by decide)
          · exact ((hv ';' h4).2.1) rfl
      have hpart2 : pyPartition '=' (k ++ '=' :: v) = (k, true, v) :=
        pyPartition_no_sep_append '=' k v (fun hm => ((hk '=' hm).2.2.1) rfl)
      have hkstrip : pyStrip k = k := pyStrip_id k (fun c hc => (hk c hc).2.2.2)
      have hvstrip : pyStrip v = v := pyStrip_id v (fun c hc => (hv c hc).2.2)
      rw [parse_accept_params, if_neg hpne, hsplitp]
      rw [List.foldlM_cons]
      simp [hpart2, hkq, hkstrip, hvstrip, pAssign]
    rw [parse_accept]
    simp [hsplit, List.foldlM_cons, hstrip, hpart, hparams, aLookup, aAssign]

/-- C6 counterexample: the Accept parser does not fail on a qualifier
whose key is not `q` — it keeps it as a parameter — while the
Accept-Encoding parser does fail on the same shape. -/
theorem parse_accept_keeps_non_q_param :
    parse_accept "text/html;foo=1".data false =
      some [("text/html".data, [("foo".data, PVal.b "1".data)])] ∧
    parse_accept_encoding "gzip;foo=1".data false = none := by
  refine ⟨by decide, by decide⟩

theorem accept_family_quality_parsing_witness :
    (parse_accept_encoding "gzip;foo=1".data false = none ∧
      parse_accept_charset "gzip;foo=1".data false = none ∧
      parse_accept_language "gzip;foo=1".data false = none) ∧
    (parse_accept_encoding "deflate, gzip".data false =
        some [("deflate".data, (1 : Rat)), ("gzip".data, (1 : Rat))] ∧
      qLookup [("deflate".data, (1 : Rat)), ("gzip".data, (1 : Rat))]
        "gzip".data = some 1) ∧
    parse_accept "text/html".data false =
      some [("text/html".data, [("q".data, PVal.f 1)])] ∧
    parse_accept "text/html;foo=1".data false =
      some [("text/html".data, [("foo".data, PVal.b "1".data)])] := by
  refine ⟨?_, ?_, ?_, ?_⟩
  · exact accept_family_quality_parsing.1 "gzip;foo=1".data
      ["gzip;foo=1".data] "gzip;foo=1".data "gzip".data "foo=1".data
      "foo".data "1".data false false (by decide) (by decide) (by decide)
      (by decide) (by decide)
  · have h := accept_family_quality_parsing.2.1
      ["deflate".data, "gzip".data] (by decide) (by decide)
    have e1 : joinSep [',', ' '] ["deflate".data, "gzip".data] =
        "deflate, gzip".data := by decide
    have e2 : (["deflate".data, "gzip".data]).foldl (fun a t => qAssign a t 1)
        ([] : QualityMap) =
        [("deflate".data, (1 : Rat)), ("gzip".data, (1 : Rat))] := by decide
    refine ⟨?_, ?_⟩
    · have h1 := h.1
      rw [e1, e2] at h1
      exact h1
    · have h4 := h.2.2.2 "gzip".data (by decide)
      rw [e2] at h4
      exact h4
  · exact accept_family_quality_parsing.2.2.1 "text/html".data (by decide)
  · have h := accept_family_quality_parsing.2.2.2 "text/html".data "foo".data
      "1".data (by decide) (by decide) (by decide) (by decide)
    have e : "text/html".data ++ ';' :: ("foo".data ++ '=' :: "1".data) =
        "text/html;foo=1".data := by decide
    rw [e] at h
    exact h


/-- C2: `encode_set_cookie(name, value, ..., secure=s)` raises the policy
error if and only if `name` starts with `b'__Secure-'` or `b'__Host-'`
and `s` is false; in particular, for every name starting with
`b'__Secure-'` and `s = true` it returns the encoded header without
raising.  The code contradicts this (and its own docstring): the guard
`name.startswith(b'__Secure-') or name.startswith(b'__Host-') and not secure`
binds as `A or (B and not secure)`, so a `__Secure-` name is rejected
even when `secure` is true, while the equally prefixed `__Host-` name is
accepted. -/
theorem encode_set_cookie_rejects_secure_prefixed_name_even_when_secure :
    encode_set_cookie "__Secure-id".data "v".data { secure := true } = .error () ∧
    encode_set_cookie "__Host-id".data "v".data { secure := true } =
      .ok "__Host-id=v; Secure".data ∧
    encode_set_cookie "__Secure-id".data "v".data { secure := false } = .error () := by
  refine ⟨rfl, rfl, rfl⟩

/-- C1: the spec promises that a request sending
`Accept-Encoding: identity;q=0`, against an eligible response with no
compatible codec, yields status 406.  The code cannot reach that branch:
`_parse_quality(rest) or 1.0` replaces the parsed (falsy) quality `0.0`
by `1.0`, so the header parses to `{identity: 1.0}`, `is_acceptable`'s
zero-identity test fails, and the middleware passes the response through
unchanged instead of returning 406. -/
theorem middleware_identity_q0_passes_through_unchanged :
    parse_accept_encoding "identity;q=0".data true =
      some [("identity".data, (1 : Rat))] ∧
    middlewareCall ["gzip".data, "deflate".data] 512
      [("accept-encoding".data, "identity;q=0".data)] 200 [] =
      some (.unchanged 200 []) ∧
    is_acceptable ["gzip".data, "deflate".data]
      [("identity".data, (0 : Rat))] ["identity".data] = some false := by
  refine ⟨by decide, by decide, by decide⟩


theorem genRun_none {σ : Type} (step : σ → Option (Bytes × σ)) (fuel : Nat) (st : σ)
    (h : step st = none) : genRun step fuel st = some [] := by
  cases fuel <;> rw [genRun, h]

theorem genRun_zero_some {σ : Type} (step : σ → Option (Bytes × σ)) (st : σ)
    (pr : Bytes × σ) (h : step st = some pr) : genRun step 0 st = none := by
  rw [genRun, h]

theorem genRun_succ_some {σ : Type} (step : σ → Option (Bytes × σ)) (fuel : Nat)
    (st : σ) (c : Bytes) (st' : σ) (h : step st = some (c, st')) :
    genRun step (fuel + 1) st = (genRun step fuel st').map (c :: ·) := by
  rw [genRun, h]

theorem genTrace_succ_some {σ : Type} (step : σ → Option (Bytes × σ)) (fuel : Nat)
    (st : σ) (c : Bytes) (st' : σ) (h : step st = some (c, st')) :
    genTrace step (fuel + 1) st = c :: genTrace step fuel st' := by
  rw [genTrace, h]

theorem pySlice_nat (buf : Bytes) (st csn : Nat) (hst : st ≤ buf.length) :
    pySlice buf (st : Int) (((st + csn : Nat) : Int)) = (buf.drop st).take csn := by
  rw [pySlice]
  have h1 : ¬((st : Int) < 0) := by omega
  have h2 : ¬(((st + csn : Nat) : Int) < 0) := by omega
  simp only [h1, h2, if_neg, if_false]
  have h3 : ((st : Int)).toNat = st := by omega
  have h4 : (((st + csn : Nat) : Int)).toNat = st + csn := by omega
  rw [h3, h4]
  have h5 : st.min buf.length = st := by
    show min st buf.length = st
    omega
  rw [h5]
  rcases Nat.le_total (st + csn) buf.length with h6 | h6
  · have h7 : (st + csn).min buf.length = st + csn := by
      show min (st + csn) buf.length = st + csn
      omega
    rw [h7, List.drop_take]
    congr 1
    omega
  · have h7 : (st + csn).min buf.length = buf.length := by
      show min (st + csn) buf.length = buf.length
      omega
    rw [h7, List.take_of_length_le (le_refl _)]
    rw [List.take_of_length_le]
    simp only [List.length_drop]
    omega

theorem pySlice_zero (buf : Bytes) : pySlice buf 0 0 = [] := by
  simp [pySlice]

theorem chunksOf_nil (k : Nat) : chunksOf k [] = [] := by
  rw [chunksOf]

theorem chunksOf_cons_of_ne_nil (k : Nat) (hk : k ≠ 0) (buf : Bytes) (hb : buf ≠ []) :
    chunksOf k buf = buf.take k :: chunksOf k (buf.drop k) := by
  cases buf with
  | nil => exact absurd rfl hb
  | cons x xs =>
    rw [chunksOf]
    simp [hk]

theorem chunksOf_flatten_bounded (k : Nat) (hk : k ≠ 0) :
    ∀ (n : Nat) (buf : Bytes), buf.length ≤ n → (chunksOf k buf).flatten = buf := by
  intro n
  induction n with
  | zero =>
    intro buf hlen
    have hb : buf = [] := List.length_eq_zero.mp (Nat.le_zero.mp hlen)
    subst hb
    rw [chunksOf_nil]
    rfl
  | succ n ih =>
    intro buf hlen
    cases buf with
    | nil => rw [chunksOf_nil]; rfl
    | cons x xs =>
      rw [chunksOf_cons_of_ne_nil k hk (x :: xs) (by simp)]
      rw [List.flatten_cons]
      rw [ih ((x :: xs).drop k) (by
        simp only [List.length_drop, List.length_cons]
        simp only [List.length_cons] at hlen
        omega)]
      exact List.take_append_drop k (x :: xs)

theorem chunksOf_flatten (k : Nat) (hk : k ≠ 0) (buf : Bytes) :
    (chunksOf k buf).flatten = buf :=
  chunksOf_flatten_bounded k hk buf.length buf (le_refl _)

theorem bwRun_loop (buf : Bytes) (cs : Int) (hcs : 1 ≤ cs) :
    ∀ (n : Nat) (st : Nat), buf.length - st ≤ n →
    ∃ fuel, genRun (bwStep buf cs) fuel (.loop (st : Int) ((st : Int) + cs)) =
      some (chunksOf cs.toNat (buf.drop st)) := by
  intro n
  induction n with
  | zero =>
    intro st hst
    have hge : buf.length ≤ st := by omega
    refine ⟨0, ?_⟩
    rw [genRun_none _ _ _ (by rw [bwStep, if_neg (by omega : ¬((st : Int) < (buf.length : Int)))])]
    rw [List.drop_eq_nil_of_le hge, chunksOf_nil]
  | succ n ih =>
    intro st hst
    by_cases hlt : st < buf.length
    · have hkne : cs.toNat ≠ 0 := by omega
      have hcast : (st : Int) + cs = ((st + cs.toNat : Nat) : Int) := by
        push_cast; omega
      have hslice : pySlice buf (st : Int) ((st : Int) + cs) =
          (buf.drop st).take cs.toNat := by
        rw [show (st : Int) + cs = ((st + cs.toNat : Nat) : Int) from hcast]
        exact pySlice_nat buf st cs.toNat (le_of_lt hlt)
      have hstep : bwStep buf cs (.loop (st : Int) ((st : Int) + cs)) =
          some ((buf.drop st).take cs.toNat,
            .loop ((st + cs.toNat : Nat) : Int)
              (((st + cs.toNat : Nat) : Int) + cs)) := by
        rw [bwStep, if_pos (by omega : (st : Int) < (buf.length : Int)), hslice, hcast]
      obtain ⟨fuel, hrun⟩ := ih (st + cs.toNat) (by omega)
      refine ⟨fuel + 1, ?_⟩
      rw [genRun_succ_some _ fuel _ _ _ hstep, hrun]
      rw [chunksOf_cons_of_ne_nil cs.toNat hkne (buf.drop st)
        (by rw [ne_eq, List.drop_eq_nil_iff]; omega)]
      rw [List.drop_drop]
      rfl
    · have hge : buf.length ≤ st := by omega
      refine ⟨0, ?_⟩
      rw [genRun_none _ _ _ (by rw [bwStep, if_neg (by omega : ¬((st : Int) < (buf.length : Int)))])]
      rw [List.drop_eq_nil_of_le hge, chunksOf_nil]

theorem bwRun_init (buf : Bytes) (cs : Int) (h : cs = -1 ∨ 1 ≤ cs) :
    ∃ fuel, genRun (bwStep buf cs) fuel (bwInit cs) =
      some (if cs = -1 then [buf] else chunksOf cs.toNat buf) := by
  rcases h with h1 | h2
  · subst h1
    refine ⟨1, ?_⟩
    rw [genRun_succ_some _ 0 _ buf BWState.done (by rw [bwInit]; rfl)]
    rw [genRun_none _ _ _ (by rw [bwStep])]
    rfl
  · have hne : cs ≠ -1 := by omega
    rw [bwInit, if_neg hne, if_neg hne]
    obtain ⟨fuel, hrun⟩ := bwRun_loop buf cs h2 buf.length 0 (by omega)
    refine ⟨fuel, ?_⟩
    rw [show (BWState.loop 0 cs) = (.loop ((0 : Nat) : Int) (((0 : Nat) : Int) + cs))
      from by norm_num]
    rw [hrun, List.drop_zero]

theorem bwStep_zero_self (buf : Bytes) (hb : buf ≠ []) :
    bwStep buf 0 (.loop 0 0) = some ([], .loop 0 0) := by
  rw [bwStep]
  have hlt : (0 : Int) < (buf.length : Int) := by
    cases buf with
    | nil => exact absurd rfl hb
    | cons x xs => simp
  rw [if_pos hlt, pySlice_zero]
  rfl

theorem bwRun_zero_none (buf : Bytes) (hb : buf ≠ []) :
    ∀ fuel, genRun (bwStep buf 0) fuel (.loop 0 0) = none := by
  intro fuel
  induction fuel with
  | zero => exact genRun_zero_some _ _ _ (bwStep_zero_self buf hb)
  | succ n ih =>
    rw [genRun_succ_some _ n _ [] _ (bwStep_zero_self buf hb), ih]
    rfl

theorem bwTrace_zero_empty (buf : Bytes) (hb : buf ≠ []) :
    ∀ fuel, genTrace (bwStep buf 0) fuel (.loop 0 0) = List.replicate fuel [] := by
  intro fuel
  induction fuel with
  | zero => rfl
  | succ n ih =>
    rw [genTrace_succ_some _ n _ [] _ (bwStep_zero_self buf hb), ih]
    rfl

theorem cwStep_flush {σ : Type} (buf : Bytes) (cs : Int) (comp : Compressor σ)
    (bst : BWState) (cst : σ) (h : bwStep buf cs bst = none) :
    cwStep buf cs comp ⟨bst, cst, false⟩ =
      some (comp.flush cst, ⟨bst, cst, true⟩) := by
  rw [cwStep, h]

theorem cwStep_chunk {σ : Type} (buf : Bytes) (cs : Int) (comp : Compressor σ)
    (bst : BWState) (cst : σ) (c : Bytes) (bst' : BWState)
    (h : bwStep buf cs bst = some (c, bst')) :
    cwStep buf cs comp ⟨bst, cst, false⟩ =
      some ((comp.compress cst c).2, ⟨bst', (comp.compress cst c).1, false⟩) := by
  rw [cwStep, h]

theorem cwStep_flushed {σ : Type} (buf : Bytes) (cs : Int) (comp : Compressor σ)
    (bst : BWState) (cst : σ) :
    cwStep buf cs comp ⟨bst, cst, true⟩ = none := by
  rw [cwStep]

theorem cwRun_of_bwRun {σ : Type} (buf : Bytes) (cs : Int) (comp : Compressor σ) :
    ∀ (fuel : Nat) (bst : BWState) (cst : σ) (chunks : List Bytes),
    genRun (bwStep buf cs) fuel bst = some chunks →
    genRun (cwStep buf cs comp) (fuel + 1) ⟨bst, cst, false⟩ =
      some ((compressChunks comp cst chunks).2 ++
        [comp.flush (compressChunks comp cst chunks).1]) := by
  intro fuel
  induction fuel with
  | zero =>
    intro bst cst chunks hrun
    cases hstep : bwStep buf cs bst with
    | none =>
      have hch : chunks = [] := by
        have := genRun_none (bwStep buf cs) 0 bst hstep
        rw [this] at hrun
        exact (Option.some.inj hrun).symm
      subst hch
      rw [genRun_succ_some _ 0 _ _ _ (cwStep_flush buf cs comp bst cst hstep)]
      rw [genRun_none _ 0 _ (cwStep_flushed buf cs comp bst cst)]
      rfl
    | some pr =>
      rw [genRun_zero_some _ bst pr hstep] at hrun
      exact absurd hrun (by simp)
  | succ fuel ih =>
    intro bst cst chunks hrun
    cases hstep : bwStep buf cs bst with
    | none =>
      have hch : chunks = [] := by
        have := genRun_none (bwStep buf cs) (fuel + 1) bst hstep
        rw [this] at hrun
        exact (Option.some.inj hrun).symm
      subst hch
      rw [genRun_succ_some _ (fuel + 1) _ _ _ (cwStep_flush buf cs comp bst cst hstep)]
      rw [genRun_none _ (fuel + 1) _ (cwStep_flushed buf cs comp bst cst)]
      rfl
    | some pr =>
      obtain ⟨c, bst'⟩ := pr
      rw [genRun_succ_some _ fuel _ c bst' hstep] at hrun
      cases hrest : genRun (bwStep buf cs) fuel bst' with
      | none => rw [hrest] at hrun; exact absurd hrun (by simp)
      | some rest =>
        rw [hrest] at hrun
        have hch : chunks = c :: rest := by
          simpa using hrun.symm
        subst hch
        rw [genRun_succ_some _ (fuel + 1) _ _ _
          (cwStep_chunk buf cs comp bst cst c bst' hstep)]
        rw [ih bst' (comp.compress cst c).1 rest hrest]
        simp [compressChunks]

/-- C9: `bytes_writer` yields a finite sequence whose chunks concatenate
back to the buffer for `chunk_size = -1` or `chunk_size ≥ 1` (and the
compression writer built on it terminates there too), but for
`chunk_size = 0` and a non-empty buffer the generator never terminates,
yielding empty chunks forever. -/
theorem bytes_writer_chunking :
    (∀ (buf : Bytes) (cs : Int), cs = -1 ∨ 1 ≤ cs →
      ∃ fuel chunks, genRun (bwStep buf cs) fuel (bwInit cs) = some chunks ∧
        chunks.flatten = buf) ∧
    (∀ buf : Bytes, buf ≠ [] →
      (∀ fuel, genRun (bwStep buf 0) fuel (bwInit 0) = none) ∧
      (∀ fuel, genTrace (bwStep buf 0) fuel (bwInit 0) = List.replicate fuel [])) ∧
    (∀ (σ : Type) (comp : Compressor σ) (s0 : σ) (buf : Bytes) (cs : Int),
      cs = -1 ∨ 1 ≤ cs →
      ∃ fuel out, genRun (cwStep buf cs comp) fuel (cwInit cs s0) = some out) := by
  refine ⟨?_, ?_, ?_⟩
  · intro buf cs h
    obtain ⟨fuel, hrun⟩ := bwRun_init buf cs h
    refine ⟨fuel, _, hrun, ?_⟩
    rcases h with h1 | h2
    · subst h1; simp
    · rw [if_neg (by omega : cs ≠ -1)]
      exact chunksOf_flatten cs.toNat (by omega) buf
  · intro buf hb
    have hinit : bwInit 0 = BWState.loop 0 0 := rfl
    rw [hinit]
    exact ⟨bwRun_zero_none buf hb, bwTrace_zero_empty buf hb⟩
  · intro σ comp s0 buf cs h
    obtain ⟨fuel, hrun⟩ := bwRun_init buf cs h
    exact ⟨fuel + 1, _, cwRun_of_bwRun buf cs comp fuel (bwInit cs) s0 _ hrun⟩

theorem bytes_writer_chunking_witness :
    (∃ fuel chunks,
      genRun (bwStep "abcde".data 2) fuel (bwInit 2) = some chunks ∧
        chunks.flatten = "abcde".data) ∧
    ((∀ fuel, genRun (bwStep "x".data 0) fuel (bwInit 0) = none) ∧
      (∀ fuel, genTrace (bwStep "x".data 0) fuel (bwInit 0) =
        List.replicate fuel [])) ∧
    (∃ fuel out, genRun (cwStep "abcde".data 2 markedCompressor) fuel
      (cwInit 2 ()) = some out) :=
  ⟨bytes_writer_chunking.1 "abcde".data 2 (Or.inr (by omega)),
    bytes_writer_chunking.2.1 "x".data (by decide),
    bytes_writer_chunking.2.2 Unit markedCompressor () "abcde".data 2
      (Or.inr (by omega))⟩

/-- C8 amended: for `chunk_size = -1` or `chunk_size ≥ 1` the
compression writer yields exactly `compress(c)` for each chunk `c` of
the buffer in order — the whole buffer for `-1`, consecutive
`chunk_size`-sized pieces otherwise — followed by exactly one final
`flush()`, after which the sequence terminates.  (For `chunk_size = 0`
the generator diverges instead; see the divergence theorem.) -/
theorem compression_writer_sequence :
    ∀ (σ : Type) (comp : Compressor σ) (s0 : σ) (buf : Bytes) (cs : Int),
    cs = -1 ∨ 1 ≤ cs →
    ∃ fuel, genRun (cwStep buf cs comp) fuel (cwInit cs s0) =
      some ((compressChunks comp s0
          (if cs = -1 then [buf] else chunksOf cs.toNat buf)).2 ++
        [comp.flush (compressChunks comp s0
          (if cs = -1 then [buf] else chunksOf cs.toNat buf)).1]) := by
  intro σ comp s0 buf cs h
  obtain ⟨fuel, hrun⟩ := bwRun_init buf cs h
  exact ⟨fuel + 1, cwRun_of_bwRun buf cs comp fuel (bwInit cs) s0 _ hrun⟩

/-- C8 counterexample: with `chunk_size = 0` and a non-empty buffer the
adapter yields empty chunks forever — it never terminates and never
emits the flush output — contradicting the claim's universal
quantification over `chunk_size`. -/
theorem compression_writer_zero_chunk_diverges : cwZeroChunkDiverges := by
  have hb : (['x'] : Bytes) ≠ [] := by decide
  have hstep : cwStep ['x'] 0 markedCompressor ⟨.loop 0 0, (), false⟩ =
      some ([], ⟨.loop 0 0, (), false⟩) := by
    rw [cwStep, bwStep_zero_self ['x'] hb]
    rfl
  have hinit : cwInit 0 () = (⟨.loop 0 0, (), false⟩ : CWState Unit) := rfl
  constructor
  · intro fuel
    rw [hinit]
    induction fuel with
    | zero => exact genRun_zero_some _ _ _ hstep
    | succ n ih =>
      rw [genRun_succ_some _ n _ [] _ hstep, ih]
      rfl
  · intro fuel
    rw [hinit]
    induction fuel with
    | zero => rfl
    | succ n ih =>
      rw [genTrace_succ_some _ n _ [] _ hstep, ih]
      rfl

theorem compression_writer_sequence_witness :
    ∃ fuel, genRun (cwStep "abcde".data 2 markedCompressor) fuel
      (cwInit 2 ()) =
      some ((compressChunks markedCompressor ()
          (if (2 : Int) = -1 then ["abcde".data]
            else chunksOf (2 : Int).toNat "abcde".data)).2 ++
        [markedCompressor.flush (compressChunks markedCompressor ()
          (if (2 : Int) = -1 then ["abcde".data]
            else chunksOf (2 : Int).toNat "abcde".data)).1]) :=
  compression_writer_sequence Unit markedCompressor () "abcde".data 2
    (Or.inr (by omega))

/- Lookup lemmas for the collection. -/

theorem cLookup_cons (k' : Bytes) (v' : PyVal) (m : Collection) (k : Bytes) :
    cLookup ((k', v') :: m) k = if k' = k then some v' else cLookup m k := by
  by_cases h : k' = k <;> simp [cLookup, List.find?_cons, h]

theorem cLookup_append_of_none (m m' : Collection) (k : Bytes)
    (h : cLookup m k = none) : cLookup (m ++ m') k = cLookup m' k := by
  induction m with
  | nil => rfl
  | cons p rest ih =>
    obtain ⟨k', v'⟩ := p
    rw [cLookup_cons] at h
    by_cases hp : k' = k
    · rw [if_pos hp] at h; exact absurd h (by simp)
    · rw [if_neg hp] at h
      rw [List.cons_append, cLookup_cons, if_neg hp]
      exact ih h

theorem cLookup_append_singleton_self (m : Collection) (k : Bytes) (v : PyVal)
    (h : cLookup m k = none) : cLookup (m ++ [(k, v)]) k = some v := by
  rw [cLookup_append_of_none m _ k h, cLookup_cons, if_pos rfl]

theorem cLookup_append_singleton_ne (m : Collection) (k k' : Bytes) (v : PyVal)
    (h : k' ≠ k) : cLookup (m ++ [(k, v)]) k' = cLookup m k' := by
  induction m with
  | nil =>
    rw [List.nil_append, cLookup_cons, if_neg (fun he => h he.symm)]
  | cons p rest ih =>
    obtain ⟨k0, v0⟩ := p
    rw [List.cons_append, cLookup_cons, cLookup_cons]
    by_cases hq : k0 = k'
    · rw [if_pos hq, if_pos hq]
    · rw [if_neg hq, if_neg hq]; exact ih

theorem cUpdate_cons (k' : Bytes) (v' : PyVal) (rest : Collection) (k : Bytes)
    (v : PyVal) :
    cUpdate ((k', v') :: rest) k v =
      if k' = k then (k', v) :: rest else (k', v') :: cUpdate rest k v := rfl

theorem cLookup_cUpdate_self (m : Collection) (k : Bytes) (v w : PyVal)
    (h : cLookup m k = some w) : cLookup (cUpdate m k v) k = some v := by
  induction m with
  | nil => simp [cLookup] at h
  | cons p rest ih =>
    obtain ⟨k', v'⟩ := p
    rw [cLookup_cons] at h
    by_cases hp : k' = k
    · rw [cUpdate_cons, if_pos hp, cLookup_cons, if_pos hp]
    · rw [if_neg hp] at h
      rw [cUpdate_cons, if_neg hp, cLookup_cons, if_neg hp]
      exact ih h

theorem cLookup_cUpdate_ne (m : Collection) (k k' : Bytes) (v : PyVal)
    (h : k' ≠ k) : cLookup (cUpdate m k v) k' = cLookup m k' := by
  induction m with
  | nil => rfl
  | cons p rest ih =>
    obtain ⟨k0, v0⟩ := p
    by_cases hp : k0 = k
    · have hne : ¬ k0 = k' := by rw [hp]; exact fun he => h he.symm
      rw [cUpdate_cons, if_pos hp, cLookup_cons, cLookup_cons, if_neg hne, if_neg hne]
    · rw [cUpdate_cons, if_neg hp, cLookup_cons, cLookup_cons]
      by_cases hq : k0 = k'
      · rw [if_pos hq, if_pos hq]
      · rw [if_neg hq, if_neg hq]; exact ih

/- Lookup lemmas for cookie tables and `tExtend`. -/

theorem tLookup_cons (k' : Bytes) (vs' : List Bytes) (m : CookieMap) (k : Bytes) :
    tLookup ((k', vs') :: m) k = if k' = k then some vs' else tLookup m k := by
  by_cases h : k' = k <;> simp [tLookup, List.find?_cons, h]

theorem tExtend_cons (k' : Bytes) (vs' : List Bytes) (rest : CookieMap) (k : Bytes)
    (vs : List Bytes) :
    tExtend ((k', vs') :: rest) k vs =
      if k' = k then (k', vs' ++ vs) :: rest else (k', vs') :: tExtend rest k vs := rfl

theorem tLookup_tExtend_self (m : CookieMap) (k : Bytes) (vs : List Bytes) :
    tLookup (tExtend m k vs) k = some ((tLookup m k).getD [] ++ vs) := by
  induction m with
  | nil =>
    show tLookup [(k, vs)] k = _
    rw [tLookup_cons, if_pos rfl]
    rfl
  | cons p rest ih =>
    obtain ⟨k', vs'⟩ := p
    by_cases hp : k' = k
    · rw [tExtend_cons, if_pos hp, tLookup_cons, if_pos hp, tLookup_cons, if_pos hp]
      rfl
    · rw [tExtend_cons, if_neg hp, tLookup_cons, if_neg hp, tLookup_cons, if_neg hp]
      exact ih

theorem tLookup_tExtend_ne (m : CookieMap) (k k' : Bytes) (vs : List Bytes)
    (h : k' ≠ k) : tLookup (tExtend m k vs) k' = tLookup m k' := by
  induction m with
  | nil =>
    show tLookup [(k, vs)] k' = _
    rw [tLookup_cons, if_neg (fun he => h he.symm)]
  | cons p rest ih =>
    obtain ⟨k0, vs0⟩ := p
    by_cases hp : k0 = k
    · have hne : ¬ k0 = k' := by rw [hp]; exact fun he => h he.symm
      rw [tExtend_cons, if_pos hp, tLookup_cons, tLookup_cons, if_neg hne, if_neg hne]
    · rw [tExtend_cons, if_neg hp, tLookup_cons, tLookup_cons]
      by_cases hq : k0 = k'
      · rw [if_pos hq, if_pos hq]
      · rw [if_neg hq, if_neg hq]; exact ih

/- `tVals` as the cumulative extension performed by a fold of `tExtend`s. -/

theorem tVals_cons (k' : Bytes) (vs' : List Bytes) (t : CookieMap) (n : Bytes) :
    tVals ((k', vs') :: t) n = (if k' = n then vs' else []) ++ tVals t n := by
  by_cases h : k' = n <;> simp [tVals, List.filter_cons, h]

theorem tLookup_foldl_tExtend (ps : List (Bytes × List Bytes)) (t0 : CookieMap)
    (n : Bytes) :
    (tLookup (ps.foldl (fun a p => tExtend a p.1 p.2) t0) n).getD [] =
      (tLookup t0 n).getD [] ++ tVals ps n := by
  induction ps generalizing t0 with
  | nil => simp [tVals]
  | cons p ps ih =>
    obtain ⟨k, vs⟩ := p
    rw [List.foldl_cons, ih, tVals_cons]
    by_cases hk : k = n
    · subst hk
      rw [tLookup_tExtend_self, if_pos rfl]
      simp
    · rw [tLookup_tExtend_ne t0 k n vs (fun he => hk he.symm), if_neg hk]
      simp

/- Key sets: folds of `tExtend` keep keys without duplicates. -/

theorem tExtend_keys (m : CookieMap) (k : Bytes) (vs : List Bytes) :
    (tExtend m k vs).map Prod.fst =
      if k ∈ m.map Prod.fst then m.map Prod.fst else m.map Prod.fst ++ [k] := by
  induction m with
  | nil => simp [tExtend]
  | cons p rest ih =>
    obtain ⟨k0, vs0⟩ := p
    by_cases hp : k0 = k
    · subst hp
      rw [tExtend_cons, if_pos rfl]
      simp
    · rw [tExtend_cons, if_neg hp]
      simp only [List.map_cons]
      rw [ih]
      by_cases hm : k ∈ rest.map Prod.fst
      · rw [if_pos hm, if_pos (List.mem_cons_of_mem _ hm)]
      · have hn : k ∉ k0 :: rest.map Prod.fst := by
          intro hmem
          rcases List.mem_cons.mp hmem with he | he
          · exact hp he.symm
          · exact hm he
        rw [if_neg hm, if_neg hn]
        simp

theorem tExtend_keys_nodup (m : CookieMap) (k : Bytes) (vs : List Bytes)
    (h : (m.map Prod.fst).Nodup) : ((tExtend m k vs).map Prod.fst).Nodup := by
  rw [tExtend_keys]
  by_cases hm : k ∈ m.map Prod.fst
  · rw [if_pos hm]; exact h
  · rw [if_neg hm]
    simp [List.nodup_append, h, hm]

theorem foldl_tExtend_keys_nodup (ps : List (Bytes × List Bytes)) (acc : CookieMap)
    (h : (acc.map Prod.fst).Nodup) :
    ((ps.foldl (fun a p => tExtend a p.1 p.2) acc).map Prod.fst).Nodup := by
  induction ps generalizing acc with
  | nil => exact h
  | cons p ps ih => exact ih _ (tExtend_keys_nodup acc p.1 p.2 h)

theorem parse_cookie_keys_nodup (w : Bytes) :
    ((parse_cookie w).map Prod.fst).Nodup :=
  foldl_tExtend_keys_nodup _ [] List.nodup_nil

theorem tVals_eq_tLookup (t : CookieMap) (n : Bytes)
    (h : (t.map Prod.fst).Nodup) : tVals t n = (tLookup t n).getD [] := by
  induction t with
  | nil => rfl
  | cons p rest ih =>
    obtain ⟨k', vs'⟩ := p
    simp only [List.map_cons, List.nodup_cons] at h
    obtain ⟨hk, hrest⟩ := h
    rw [tVals_cons, tLookup_cons]
    by_cases hp : k' = n
    · subst hp
      have hfil : rest.filter (fun p => p.1 = k') = [] := by
        rw [List.filter_eq_nil_iff]
        intro p hp
        simp only [decide_eq_true_eq]
        intro he
        exact hk (he ▸ List.mem_map_of_mem Prod.fst hp)
      have hnil : tVals rest k' = [] := by simp [tVals, hfil]
      rw [if_pos rfl, if_pos rfl, hnil]
      simp
    · rw [if_neg hp, if_neg hp]
      simp [ih hrest]

theorem tMerge_vals (t0 t1 : CookieMap) (n : Bytes)
    (h1 : (t1.map Prod.fst).Nodup) :
    (tLookup (tMerge t0 t1) n).getD [] =
      (tLookup t0 n).getD [] ++ (tLookup t1 n).getD [] := by
  rw [tMerge, tLookup_foldl_tExtend, tVals_eq_tLookup t1 n h1]

/- `find_all` and one step of `collect`. -/

theorem find_all_cons (name : Bytes) (h : Header) (hs : List Header) :
    find_all name (h :: hs) =
      if h.1 = name then h.2 :: find_all name hs else find_all name hs := by
  by_cases hn : h.1 = name <;> simp [find_all, List.filter_cons, hn]

theorem find_all_cons_pair (name k v : Bytes) (hs : List Header) :
    find_all name ((k, v) :: hs) =
      if k = name then v :: find_all name hs else find_all name hs :=
  find_all_cons name (k, v) hs

theorem collectStep_set_cookie (acc : Collection) (v : Bytes) (r : SetCookieRecord)
    (hdec : decode_set_cookie v = some r) :
    collectStep acc ("set-cookie".data, v) =
      cAppendAt acc "set-cookie".data (.record r) := by
  simp [collectStep, parserFor, hdec]

theorem collectStep_cookie (acc : Collection) (v : Bytes) :
    collectStep acc ("cookie".data, v) =
      cExtendAt acc "cookie".data (parse_cookie v) := by
  have hne : ¬ ("cookie".data : Bytes) = "set-cookie".data := by decide
  simp [collectStep, parserFor, hne]

theorem cAppendAt_record_none (m : Collection) (k : Bytes) (r : SetCookieRecord)
    (h : cLookup m k = none) :
    cAppendAt m k (.record r) = some (m ++ [(k, .recordList [r])]) := by
  simp [cAppendAt, h]

theorem cAppendAt_record_some (m : Collection) (k : Bytes)
    (xs : List SetCookieRecord) (r : SetCookieRecord)
    (h : cLookup m k = some (.recordList xs)) :
    cAppendAt m k (.record r) = some (cUpdate m k (.recordList (xs ++ [r]))) := by
  simp [cAppendAt, h]

theorem cExtendAt_none (m : Collection) (k : Bytes) (t : CookieMap)
    (h : cLookup m k = none) :
    cExtendAt m k t = some (m ++ [(k, .table (tMerge [] t))]) := by
  simp [cExtendAt, h]

theorem cExtendAt_table (m : Collection) (k : Bytes) (t0 t : CookieMap)
    (h : cLookup m k = some (.table t0)) :
    cExtendAt m k t = some (cUpdate m k (.table (tMerge t0 t))) := by
  simp [cExtendAt, h]

/- The fold underlying `collect`, on cookie-subsystem header lists. -/

theorem collect_fold_cookie (hs : List Header) :
    ∀ (acc : Collection) (rs : List SetCookieRecord),
    (∀ h ∈ hs, h.1 = "set-cookie".data ∨ h.1 = "cookie".data) →
    (∀ v, cLookup acc "set-cookie".data = some v → ∃ xs, v = PyVal.recordList xs) →
    (∀ v, cLookup acc "cookie".data = some v → ∃ t, v = PyVal.table t) →
    (find_all "set-cookie".data hs).mapM decode_set_cookie = some rs →
    ∃ d, hs.foldlM collectStep acc = some d ∧
      cLookup d "set-cookie".data = mergeRecOpt (cLookup acc "set-cookie".data) rs ∧
      cLookup d "cookie".data =
        mergeTblOpt (cLookup acc "cookie".data)
          ((find_all "cookie".data hs).map parse_cookie) := by
  have hne : ("set-cookie".data : Bytes) ≠ "cookie".data := by decide
  induction hs with
  | nil =>
    intro acc rs _ _ _ hdec
    have h0 : (find_all "set-cookie".data ([] : List Header)).mapM decode_set_cookie =
        some [] := rfl
    rw [h0] at hdec
    have hrs : rs = [] := (Option.some.inj hdec).symm
    subst hrs
    refine ⟨acc, rfl, ?_, ?_⟩
    · cases hsc : cLookup acc "set-cookie".data with
      | none => rfl
      | some v => cases v <;> simp [mergeRecOpt]
    · cases hck : cLookup acc "cookie".data with
      | none => rfl
      | some v => cases v <;> simp [mergeTblOpt, find_all]
  | cons h0 hs ih =>
    intro acc rs hnames hsc hck hdec
    obtain ⟨name, v⟩ := h0
    have hnames' : ∀ h ∈ hs, h.1 = "set-cookie".data ∨ h.1 = "cookie".data :=
      fun h hm => hnames h (List.mem_cons_of_mem _ hm)
    rcases hnames (name, v) (List.mem_cons_self _ _) with hname | hname
    · -- a `set-cookie` line
      have hname' : name = "set-cookie".data := hname
      subst hname'
      rw [find_all_cons_pair, if_pos rfl, List.mapM_cons] at hdec
      cases hd0 : decode_set_cookie v with
      | none => rw [hd0] at hdec; simp at hdec
      | some r0 =>
        rw [hd0] at hdec
        cases hdrest : (find_all "set-cookie".data hs).mapM decode_set_cookie with
        | none => rw [hdrest] at hdec; simp at hdec
        | some rs' =>
          rw [hdrest] at hdec
          simp at hdec
          subst hdec
          cases hlook : cLookup acc "set-cookie".data with
          | none =>
            set acc' := acc ++ [("set-cookie".data, PyVal.recordList [r0])] with hacc'
            have hsc1 : cLookup acc' "set-cookie".data = some (.recordList [r0]) :=
              cLookup_append_singleton_self acc _ _ hlook
            have hck1 : cLookup acc' "cookie".data = cLookup acc "cookie".data :=
              cLookup_append_singleton_ne acc _ _ _ (fun he => hne he.symm)
            obtain ⟨d, hfold, hdsc, hdck⟩ :=
              ih acc' rs' hnames'
                (fun w hw => ⟨[r0], by rw [hsc1] at hw; exact (Option.some.inj hw).symm⟩)
                (fun w hw => hck w (hck1 ▸ hw)) hdrest
            refine ⟨d, ?_, ?_, ?_⟩
            · rw [List.foldlM_cons, collectStep_set_cookie acc v r0 hd0,
                cAppendAt_record_none acc _ r0 hlook]
              exact hfold
            · rw [hdsc, hsc1]
              simp [mergeRecOpt]
            · rw [hdck, hck1, find_all_cons_pair, if_neg hne]
          | some w0 =>
            obtain ⟨xs, hxs⟩ := hsc w0 hlook
            subst hxs
            set acc' := cUpdate acc "set-cookie".data (.recordList (xs ++ [r0]))
              with hacc'
            have hsc1 : cLookup acc' "set-cookie".data =
                some (.recordList (xs ++ [r0])) :=
              cLookup_cUpdate_self acc _ _ _ hlook
            have hck1 : cLookup acc' "cookie".data = cLookup acc "cookie".data :=
              cLookup_cUpdate_ne acc _ _ _ (fun he => hne he.symm)
            obtain ⟨d, hfold, hdsc, hdck⟩ :=
              ih acc' rs' hnames'
                (fun w hw => ⟨xs ++ [r0],
                  by rw [hsc1] at hw; exact (Option.some.inj hw).symm⟩)
                (fun w hw => hck w (hck1 ▸ hw)) hdrest
            refine ⟨d, ?_, ?_, ?_⟩
            · rw [List.foldlM_cons, collectStep_set_cookie acc v r0 hd0,
                cAppendAt_record_some acc _ xs r0 hlook]
              exact hfold
            · rw [hdsc, hsc1]
              simp [mergeRecOpt]
            · rw [hdck, hck1, find_all_cons_pair, if_neg hne]
    · -- a `cookie` line
      have hname' : name = "cookie".data := hname
      subst hname'
      have hcn : ¬ ("cookie".data : Bytes) = "set-cookie".data := fun he => hne he.symm
      rw [find_all_cons_pair, if_neg hcn] at hdec
      cases hlook : cLookup acc "cookie".data with
      | none =>
        set acc' := acc ++ [("cookie".data, PyVal.table (tMerge [] (parse_cookie v)))]
          with hacc'
        have hck1 : cLookup acc' "cookie".data =
            some (.table (tMerge [] (parse_cookie v))) :=
          cLookup_append_singleton_self acc _ _ hlook
        have hsc1 : cLookup acc' "set-cookie".data = cLookup acc "set-cookie".data :=
          cLookup_append_singleton_ne acc _ _ _ hne
        obtain ⟨d, hfold, hdsc, hdck⟩ :=
          ih acc' rs hnames' (fun w hw => hsc w (hsc1 ▸ hw))
            (fun w hw => ⟨tMerge [] (parse_cookie v),
              by rw [hck1] at hw; exact (Option.some.inj hw).symm⟩) hdec
        refine ⟨d, ?_, ?_, ?_⟩
        · rw [List.foldlM_cons, collectStep_cookie acc v,
            cExtendAt_none acc _ _ hlook]
          exact hfold
        · rw [hdsc, hsc1]
        · rw [hdck, hck1, find_all_cons_pair, if_pos rfl]
          simp [mergeTblOpt]
      | some w0 =>
        obtain ⟨t0, ht0⟩ := hck w0 hlook
        subst ht0
        set acc' := cUpdate acc "cookie".data (.table (tMerge t0 (parse_cookie v)))
          with hacc'
        have hck1 : cLookup acc' "cookie".data =
            some (.table (tMerge t0 (parse_cookie v))) :=
          cLookup_cUpdate_self acc _ _ _ hlook
        have hsc1 : cLookup acc' "set-cookie".data = cLookup acc "set-cookie".data :=
          cLookup_cUpdate_ne acc _ _ _ hne
        obtain ⟨d, hfold, hdsc, hdck⟩ :=
          ih acc' rs hnames' (fun w hw => hsc w (hsc1 ▸ hw))
            (fun w hw => ⟨tMerge t0 (parse_cookie v),
              by rw [hck1] at hw; exact (Option.some.inj hw).symm⟩) hdec
        refine ⟨d, ?_, ?_, ?_⟩
        · rw [List.foldlM_cons, collectStep_cookie acc v,
            cExtendAt_table acc _ t0 _ hlook]
          exact hfold
        · rw [hdsc, hsc1]
        · rw [hdck, hck1, find_all_cons_pair, if_pos rfl]
          simp [mergeTblOpt]

/-- C7: over a header list drawn from the cookie subsystem (`set-cookie`
and `cookie` names), `collect` follows the registered merge strategies:
(a) APPEND — when exactly two `set-cookie` lines occur and both decode,
the collection maps `b"set-cookie"` to the two decoded records in
encounter order; (b) EXTEND — when exactly two `cookie` lines occur (and
the `set-cookie` lines, if any, decode), the collection maps `b"cookie"`
to one table in which every cookie name's value list is the
concatenation, in encounter order, of that name's value lists from the
two parsed lines. -/
theorem collect_cookie_headers :
    (∀ (hs : List Header) (v1 v2 : Bytes) (r1 r2 : SetCookieRecord),
      (∀ h ∈ hs, h.1 = "set-cookie".data ∨ h.1 = "cookie".data) →
      find_all "set-cookie".data hs = [v1, v2] →
      decode_set_cookie v1 = some r1 → decode_set_cookie v2 = some r2 →
      ∃ d, collect hs = some d ∧
        cLookup d "set-cookie".data = some (.recordList [r1, r2])) ∧
    (∀ (hs : List Header) (w1 w2 : Bytes) (rs : List SetCookieRecord),
      (∀ h ∈ hs, h.1 = "set-cookie".data ∨ h.1 = "cookie".data) →
      find_all "cookie".data hs = [w1, w2] →
      (find_all "set-cookie".data hs).mapM decode_set_cookie = some rs →
      ∃ d t, collect hs = some d ∧ cLookup d "cookie".data = some (.table t) ∧
        ∀ n, (tLookup t n).getD [] =
          (tLookup (parse_cookie w1) n).getD [] ++
            (tLookup (parse_cookie w2) n).getD []) := by
  constructor
  · intro hs v1 v2 r1 r2 hnames hfa h1 h2
    have hdec : (find_all "set-cookie".data hs).mapM decode_set_cookie =
        some [r1, r2] := by
      rw [hfa]
      simp only [List.mapM_cons, List.mapM_nil, h1, h2]
      rfl
    obtain ⟨d, hfold, hdsc, _⟩ :=
      collect_fold_cookie hs [] [r1, r2] hnames (by simp [cLookup])
        (by simp [cLookup]) hdec
    refine ⟨d, hfold, ?_⟩
    rw [hdsc]
    rfl
  · intro hs w1 w2 rs hnames hfa hdec
    obtain ⟨d, hfold, _, hdck⟩ :=
      collect_fold_cookie hs [] rs hnames (by simp [cLookup])
        (by simp [cLookup]) hdec
    rw [hfa] at hdck
    refine ⟨d, tMerge (tMerge [] (parse_cookie w1)) (parse_cookie w2), hfold, ?_, ?_⟩
    · rw [hdck]
      rfl
    · intro n
      rw [tMerge_vals _ _ n (parse_cookie_keys_nodup w2),
        tMerge_vals _ _ n (parse_cookie_keys_nodup w1)]
      simp [tLookup]

theorem collect_cookie_headers_witness :
    (∃ d, collect [("set-cookie".data, "a=1".data), ("cookie".data, "x=1; y=2".data),
        ("set-cookie".data, "b=2".data), ("cookie".data, "x=3".data)] = some d ∧
      cLookup d "set-cookie".data = some (.recordList
        [⟨"a".data, "1".data, none, none, false, false, none, []⟩,
         ⟨"b".data, "2".data, none, none, false, false, none, []⟩])) ∧
    (∃ d t, collect [("set-cookie".data, "a=1".data), ("cookie".data, "x=1; y=2".data),
        ("set-cookie".data, "b=2".data), ("cookie".data, "x=3".data)] = some d ∧
      cLookup d "cookie".data = some (.table t) ∧
      ∀ n, (tLookup t n).getD [] =
        (tLookup (parse_cookie "x=1; y=2".data) n).getD [] ++
          (tLookup (parse_cookie "x=3".data) n).getD []) :=
  ⟨collect_cookie_headers.1 _ "a=1".data "b=2".data
      ⟨"a".data, "1".data, none, none, false, false, none, []⟩
      ⟨"b".data, "2".data, none, none, false, false, none, []⟩
      (by decide) (by decide) (by decide) (by decide),
    collect_cookie_headers.2 _ "x=1; y=2".data "x=3".data
      [⟨"a".data, "1".data, none, none, false, false, none, []⟩,
       ⟨"b".data, "2".data, none, none, false, false, none, []⟩]
      (by decide) (by decide) (by decide)⟩

end BareUtils
